import Mathlib

/-!
# Verification of the 4-player-chess engine core (board model)

Shallow embedding of the board state model, move generation, attack
detection, game-result query, move picker and iterative-deepening driver
of the `4pchess` engine, translated from `board.cc`, `player.cc` and
`move_picker2.h`.

The repository ships only the `.cc` files and two small headers; the
declarations of `board.h` and `player.h` (trivial accessors, the Zobrist
key tables, `IsLegalLocation`, `kMateValue`, buffer sizes) are missing
from the sources.  Definitions for those are marked
`Modelled from the spec:` in their doc comments; everything else is
translated directly from the source files.
-/

set_option maxRecDepth 10000

namespace FourPC

/-- The four player colors, in the C++ enum order RED, BLUE, YELLOW, GREEN
(turn order cycles in this order). -/
inductive PlayerColor where
  | red
  | blue
  | yellow
  | green
deriving DecidableEq, Repr

/-- The two teams: RED_YELLOW and BLUE_GREEN. -/
inductive Team where
  | ry
  | bg
deriving DecidableEq, Repr

/-- Numeric value of a color, as in the C++ enum. -/
def PlayerColor.toNat : PlayerColor → Nat
  | .red => 0
  | .blue => 1
  | .yellow => 2
  | .green => 3

/-- Inverse of `PlayerColor.toNat` (mod 4), used for the `(color + k) & 0x3`
arithmetic of the C++ code. -/
def colorOfIdx (n : Nat) : PlayerColor :=
  match n % 4 with
  | 0 => .red
  | 1 => .blue
  | 2 => .yellow
  | _ => .green

/-- `GetTeam` (board.cc:1917): RED and YELLOW form one team, BLUE and GREEN
the other. -/
def PlayerColor.team : PlayerColor → Team
  | .red => .ry
  | .yellow => .ry
  | .blue => .bg
  | .green => .bg

/-- `OtherTeam` (board.cc:2162). -/
def otherTeam : Team → Team
  | .ry => .bg
  | .bg => .ry

/-- `teammate_color = (color + 2) & 0x3` as computed in the Direct move
generators (board.cc:143 and others). -/
def teammateColor (c : PlayerColor) : PlayerColor := colorOfIdx (c.toNat + 2)

/-- `GetNextPlayer` (board.cc:1921): RED → BLUE → YELLOW → GREEN → RED. -/
def nextPlayer : PlayerColor → PlayerColor
  | .red => .blue
  | .blue => .yellow
  | .yellow => .green
  | .green => .red

/-- `GetPreviousPlayer` (board.cc:1949). -/
def prevPlayer : PlayerColor → PlayerColor
  | .red => .green
  | .blue => .red
  | .yellow => .blue
  | .green => .yellow

/-- Piece types, in the C++ enum order visible in `kPieceValues`
(board.cc:20): NO_PIECE, PAWN, KING, QUEEN, ROOK, BISHOP, KNIGHT. -/
inductive PieceType where
  | noPiece
  | pawn
  | king
  | queen
  | rook
  | bishop
  | knight
deriving DecidableEq, Repr

/-- Numeric value of a piece type, as in the C++ enum. -/
def PieceType.toNat : PieceType → Nat
  | .noPiece => 0
  | .pawn => 1
  | .king => 2
  | .queen => 3
  | .rook => 4
  | .bishop => 5
  | .knight => 6

/-- A present piece: color and type.  The C++ `Piece` with its
present/missing flag is modelled as `Option PieceData`. -/
structure PieceData where
  color : PlayerColor
  type : PieceType
deriving DecidableEq, Repr

/-- `Piece`: `none` models `Piece::kNoPiece` / `Missing()`. -/
abbrev Piece := Option PieceData

/-- `PieceData.team`, as in `Piece::GetTeam()`. -/
def PieceData.team (p : PieceData) : Team := p.color.team

/-- A board location (row, col).  C++ `BoardLocation` stores them as
small signed integers; deltas go negative, so we use `Int`. -/
structure Loc where
  row : Int
  col : Int
deriving DecidableEq, Repr

/-- Modelled from the spec: `BoardLocation::kNoLocation`, the sentinel
"absent location" default (its constructor is in the missing `board.h`).
Any off-board value works; every use in scope only tests it with
`IsLegalLocation`, which is false for it. -/
def kNoLocation : Loc := ⟨-1, -1⟩

/-- Modelled from the spec: `IsLegalLocation` (declared in the missing
`board.h`).  The spec (§3) says the 14×14 grid has the four 3×3 corners
removed, leaving 160 legal squares; the constants in `player.cc:71`
(`row <= 2 || row >= 11 || col <= 2 || col >= 11`) pin down the band. -/
def isLegalRC (r c : Int) : Bool :=
  0 ≤ r && r ≤ 13 && 0 ≤ c && c ≤ 13 &&
    !((r ≤ 2 || 11 ≤ r) && (c ≤ 2 || 11 ≤ c))

/-- `IsLegalLocation` applied to a `BoardLocation`. -/
def Loc.isLegal (l : Loc) : Bool := isLegalRC l.row l.col

/-- In-bounds test for raw grid indexing (0 ≤ r,c ≤ 13).  The C++ grid
accessors index `location_to_piece_[row][col]` directly; the embedding
guards the access and treats out-of-bounds reads as empty. -/
def inBoundsRC (r c : Int) : Bool := 0 ≤ r && r ≤ 13 && 0 ≤ c && c ≤ 13

/-- `CastlingRights` (kingside, queenside). -/
structure CastlingRights where
  kingside : Bool
  queenside : Bool
deriving DecidableEq, Repr

/-- A rook sub-move attached to a castling move (`SimpleMove`). -/
structure SimpleMove where
  sfrom : Loc
  sto : Loc
deriving DecidableEq, Repr

/-- `Move`: from/to, the standard captured piece, the en-passant fields,
the promotion piece type, and the castling-rights snapshots some
generators attach.  `GetStandardCapture` reads `capture`;
equality is modelled as structural equality on all fields
(`Move::operator==` is declared in the missing `board.h`). -/
structure Move where
  fromLoc : Loc
  toLoc : Loc
  capture : Piece := none
  enpLoc : Option Loc := none
  enpCapture : Piece := none
  promo : PieceType := .noPiece
  rookMove : Option SimpleMove := none
  initialRights : Option CastlingRights := none
  newRights : Option CastlingRights := none
deriving DecidableEq, Repr

/-- A `(location, piece)` pair of a piece list (`PlacedPiece`). -/
structure PlacedPiece where
  loc : Loc
  piece : PieceData
deriving DecidableEq, Repr

/-- A value per player color (the C++ arrays indexed by `PlayerColor`). -/
structure PerColor (α : Type) where
  red : α
  blue : α
  yellow : α
  green : α
deriving DecidableEq, Repr

namespace PerColor

def get (v : PerColor α) : PlayerColor → α
  | .red => v.red
  | .blue => v.blue
  | .yellow => v.yellow
  | .green => v.green

def set (v : PerColor α) : PlayerColor → α → PerColor α
  | .red, x => { v with red := x }
  | .blue, x => { v with blue := x }
  | .yellow, x => { v with yellow := x }
  | .green, x => { v with green := x }

@[simp] theorem get_set_eq (v : PerColor α) (c : PlayerColor) (x : α) :
    (v.set c x).get c = x := by
  cases c <;> rfl

theorem get_set_ne (v : PerColor α) (c c' : PlayerColor) (x : α)
    (h : c' ≠ c) : (v.set c x).get c' = v.get c' := by
  cases c <;> cases c' <;> simp_all [set, get]

def mkSame (x : α) : PerColor α := ⟨x, x, x, x⟩

theorem get_mkSame (x : α) (c : PlayerColor) : (mkSame x).get c = x := by
  cases c <;> rfl

theorem ext_get {v w : PerColor α} (h : ∀ c, v.get c = w.get c) : v = w := by
  cases v; cases w
  have h0 := h .red
  have h1 := h .blue
  have h2 := h .yellow
  have h3 := h .green
  simp only [get] at h0 h1 h2 h3
  subst h0 h1 h2 h3
  rfl

end PerColor

/-- The dense 14×14 grid in row-major order (196 cells).
`location_to_piece_[r][c]` is cell `r*14 + c`. -/
abbrev Grid := List Piece

/-- Row-major cell index. -/
def gridIdx (r c : Int) : Nat := r.toNat * 14 + c.toNat

/-- `GetPiece(row, col)`: grid lookup.  Out-of-bounds reads (undefined
behaviour in C++, never exercised by the translated code on legal
locations) are modelled as empty. -/
def gridGet (g : Grid) (r c : Int) : Piece :=
  if inBoundsRC r c then g.getD (gridIdx r c) none else none

/-- Write one grid cell.  (`List.set` is the identity out of range, which
matches the guarded model of `gridGet`.) -/
def gridSet (g : Grid) (r c : Int) (p : Piece) : Grid :=
  if inBoundsRC r c then g.set (gridIdx r c) p else g

/-- `GetPiece` on a `BoardLocation`. -/
def gridGetL (g : Grid) (l : Loc) : Piece := gridGet g l.row l.col

/-- `gridSet` on a `BoardLocation`. -/
def gridSetL (g : Grid) (l : Loc) (p : Piece) : Grid := gridSet g l.row l.col p

/-- Modelled from the spec: the per-(color, piece-type, square) Zobrist
keys.  The C++ board constructor fills `piece_hashes_` from `rand64()`
after `std::srand(958829)` (board.cc:1899-1912); the generator itself
lives behind the missing `board.h`/libc.  What the claims use is only
that every construction fills the same fixed table, so the embedding
uses one fixed global table; none of the theorems depend on its values. -/
def pieceKey (c : PlayerColor) (t : PieceType) (r col : Int) : Nat :=
  (((c.toNat * 7 + t.toNat) * 14 + r.toNat) * 14 + col.toNat) * 2 + 3

/-- Modelled from the spec: the per-color turn keys `turn_hashes_`,
filled from the same seeded generator (board.cc:1901-1903). -/
def turnKey (t : Nat) : Nat := (t % 4) * 5 + 100000

/-- Key of one grid cell (empty cells contribute nothing). -/
def cellKey (p : Piece) (r c : Int) : Nat :=
  match p with
  | none => 0
  | some d => pieceKey d.color d.type r c

/-- Modelled from the spec: `UpdatePieceHash` (missing `board.h`); the
spec (§3, glossary) describes the hash as an incrementally XOR-combined
Zobrist fingerprint, and Make/Undo cancellation requires the update to
be an involution, so it toggles the piece key. -/
def updatePieceHash (h : Nat) (p : PieceData) (l : Loc) : Nat :=
  h ^^^ pieceKey p.color p.type l.row l.col

/-- Modelled from the spec: `UpdateTurnHash` (missing `board.h`),
toggling a turn key. -/
def updateTurnHash (h : Nat) (t : Nat) : Nat := h ^^^ turnKey t

/-- Modelled from the spec: `kPieceEvaluations` (missing `board.h`),
the per-piece-type material values feeding the incremental evaluations.
The claims never depend on the values, only on the increments
cancelling between Make and Undo. -/
def pieceEvalOf : PieceType → Int
  | .noPiece => 0
  | .pawn => 100
  | .king => 0
  | .queen => 900
  | .rook => 500
  | .bishop => 300
  | .knight => 300

/-- The mutable `Board` aggregate (board.h/board.cc): grid, per-color
piece lists, cached king locations, castling rights, side to move,
incremental hash, incremental material evaluations and the move-history
stack.  The history is stored most-recent-first (`moves_.back()` is the
head).  The `enp_` side table is not modelled: within the scope of the
claims it is read only by `GetPawnMoves2`, which `GetPseudoLegalMoves2`
does not call. -/
structure Board where
  grid : Grid
  pieceList : PerColor (List PlacedPiece)
  kingLoc : PerColor (Option Loc)
  castling : PerColor CastlingRights
  turn : PlayerColor
  hash : Nat
  pieceEval : Int
  playerEval : PerColor Int
  history : List Move
deriving DecidableEq, Repr

/-- `std::find_if` + `erase` on a piece list: remove the first entry at
the given location; `none` models the `std::abort()` taken when the
entry is absent (board.cc:1588-1591, 1618-1621). -/
def eraseAt : List PlacedPiece → Loc → Option (List PlacedPiece)
  | [], _ => none
  | pp :: rest, l =>
    if pp.loc = l then some rest else (eraseAt rest l).map (pp :: ·)

/-- The erase-if-found of `UndoMove` (board.cc:1693-1697): no abort when
the entry is missing. -/
def eraseFirstLoc (l : List PlacedPiece) (loc : Loc) : List PlacedPiece :=
  (eraseAt l loc).getD l

/-- `Board::MakeMove` (board.cc:1547-1665), the non-aborting path;
`none` models the fatal aborts (captured piece or moving piece missing
from its piece list) and the unreachable read of an absent moving piece.
Note what the code does *not* do: it ignores the promotion, en-passant
and castling-rights fields of the move, and a captured king does not
clear the captured color's castling rights. -/
def makeMove (b : Board) (m : Move) : Option Board := do
  let piece ← gridGetL b.grid m.fromLoc
  -- capture handling (board.cc:1574-1608)
  let afterCapture : Board ←
    match gridGetL b.grid m.toLoc with
    | none => some b
    | some cap => do
      let l' ← eraseAt (b.pieceList.get cap.color) m.toLoc
      let ev := pieceEvalOf cap.type
      some { b with
        pieceList := b.pieceList.set cap.color l'
        hash := updatePieceHash b.hash cap m.toLoc
        grid := gridSetL b.grid m.toLoc none
        kingLoc := if cap.type = .king then b.kingLoc.set cap.color none
                   else b.kingLoc
        pieceEval := if cap.team = .ry then b.pieceEval - ev
                     else b.pieceEval + ev
        playerEval := b.playerEval.set cap.color
          (b.playerEval.get cap.color - ev) }
  -- remove the moving piece from its origin (board.cc:1610-1630)
  let l2 ← eraseAt (afterCapture.pieceList.get piece.color) m.fromLoc
  let b2 : Board := { afterCapture with
    pieceList := afterCapture.pieceList.set piece.color l2
    hash := updatePieceHash afterCapture.hash piece m.fromLoc
    grid := gridSetL afterCapture.grid m.fromLoc none
    castling := if piece.type = .king then
        afterCapture.castling.set piece.color ⟨false, false⟩
      else afterCapture.castling
    kingLoc := if piece.type = .king then
        afterCapture.kingLoc.set piece.color none
      else afterCapture.kingLoc }
  -- place it at the destination (board.cc:1632-1657)
  let b3 : Board := { b2 with
    grid := gridSetL b2.grid m.toLoc (some piece)
    pieceList := b2.pieceList.set piece.color
      (b2.pieceList.get piece.color ++ [⟨m.toLoc, piece⟩])
    hash := updatePieceHash b2.hash piece m.toLoc
    kingLoc := if piece.type = .king then
        b2.kingLoc.set piece.color (some m.toLoc)
      else b2.kingLoc }
  -- turn hash toggle, turn advance, history push (board.cc:1659-1664)
  let t := piece.color.toNat
  some { b3 with
    hash := updateTurnHash (updateTurnHash b3.hash t) ((t + 1) % 4)
    turn := nextPlayer b3.turn
    history := m :: b3.history }

/-- `Board::UndoMove` (board.cc:1668-1757); `none` models the empty-
history assertion and the unreachable read of an absent piece at the
destination square.  Note: a king move sets the mover's castling rights
to (false,false) *again* instead of restoring the pre-move value. -/
def undoMove (b : Board) : Option Board := do
  match b.history with
  | [] => none
  | m :: rest => do
    let turnBefore := prevPlayer b.turn
    let piece ← gridGetL b.grid m.toLoc
    -- remove the piece from the destination (board.cc:1693-1707)
    let l1 := eraseFirstLoc (b.pieceList.get piece.color) m.toLoc
    let b1 : Board := { b with
      pieceList := b.pieceList.set piece.color l1
      hash := updatePieceHash b.hash piece m.toLoc
      grid := gridSetL b.grid m.toLoc none
      castling := if piece.type = .king then
          b.castling.set piece.color ⟨false, false⟩
        else b.castling
      kingLoc := if piece.type = .king then
          b.kingLoc.set piece.color none
        else b.kingLoc }
    -- place it back at the origin (board.cc:1709-1732)
    let b2 : Board := { b1 with
      grid := gridSetL b1.grid m.fromLoc (some piece)
      pieceList := b1.pieceList.set piece.color
        (b1.pieceList.get piece.color ++ [⟨m.fromLoc, piece⟩])
      hash := updatePieceHash b1.hash piece m.fromLoc
      kingLoc := if piece.type = .king then
          b1.kingLoc.set piece.color (some m.fromLoc)
        else b1.kingLoc }
    -- restore the standard capture (board.cc:1734-1750)
    let b3 : Board :=
      match m.capture with
      | none => b2
      | some cap =>
        let ev := pieceEvalOf cap.type
        { b2 with
          grid := gridSetL b2.grid m.toLoc (some cap)
          pieceList := b2.pieceList.set cap.color
            (b2.pieceList.get cap.color ++ [⟨m.toLoc, cap⟩])
          hash := updatePieceHash b2.hash cap m.toLoc
          kingLoc := if cap.type = .king then
              b2.kingLoc.set cap.color (some m.toLoc)
            else b2.kingLoc
          pieceEval := if cap.team = .ry then b2.pieceEval + ev
                       else b2.pieceEval - ev
          playerEval := b2.playerEval.set cap.color
            (b2.playerEval.get cap.color + ev) }
    -- turn restore, history pop, turn hash toggle (board.cc:1752-1756)
    let t := turnBefore.toNat
    some { b3 with
      turn := turnBefore
      history := rest
      hash := updateTurnHash (updateTurnHash b3.hash t) ((t + 1) % 4) }

/-- `Board::MakeNullMove` (board.cc:2223-2229). -/
def makeNullMove (b : Board) : Board :=
  let t := b.turn.toNat
  { b with
    hash := updateTurnHash (updateTurnHash b.hash t) ((t + 1) % 4)
    turn := nextPlayer b.turn }

/-- `Board::UndoNullMove` (board.cc:2231-2237). -/
def undoNullMove (b : Board) : Board :=
  let turnBefore := prevPlayer b.turn
  let t := turnBefore.toNat
  { b with
    turn := turnBefore
    hash := updateTurnHash (updateTurnHash b.hash t) ((t + 1) % 4) }

/-- Move-ordering score of a piece type used to sort the piece lists in
the board constructor (board.cc:1878-1893). -/
def moveOrderScore : PieceType → Nat
  | .pawn => 1
  | .knight => 2
  | .bishop => 3
  | .rook => 4
  | .queen => 5
  | .king => 0
  | .noPiece => 0

/-- One placement step of the board constructor loop
(board.cc:1858-1876). -/
def placeOne (b : Board) (lp : Loc × PieceData) : Board :=
  let l := lp.1
  let p := lp.2
  let ev := pieceEvalOf p.type
  { b with
    grid := gridSetL b.grid l (some p)
    pieceList := b.pieceList.set p.color
      (b.pieceList.get p.color ++ [⟨l, p⟩])
    pieceEval := if p.team = .ry then b.pieceEval + ev else b.pieceEval - ev
    playerEval := b.playerEval.set p.color (b.playerEval.get p.color + ev)
    kingLoc := if p.type = .king then b.kingLoc.set p.color (some l)
               else b.kingLoc }

/-- `InitializeHash` (board.cc:1538-1545): XOR the key of every piece-
list entry for the four colors in order, then toggle the turn key. -/
def initHash (b : Board) : Board :=
  let f : Nat → List PlacedPiece → Nat := fun h l =>
    l.foldl (fun h pp => updatePieceHash h pp.piece pp.loc) h
  let h := f (f (f (f 0 (b.pieceList.get .red)) (b.pieceList.get .blue))
      (b.pieceList.get .yellow)) (b.pieceList.get .green)
  { b with hash := updateTurnHash h b.turn.toNat }

/-- The board constructor (board.cc:1821-1915): start from an empty
grid, empty piece lists, absent kings and zero evaluations; insert every
placement (the input list models the `unordered_map` in its iteration
order); sort each piece list by `moveOrderScore` (`std::sort` with an
unspecified order among ties; the embedding uses a stable merge sort);
then seed the key tables (a fixed global table here) and initialize the
hash. -/
def mkBoard (placements : List (Loc × PieceData)) (turn : PlayerColor)
    (rights : PerColor CastlingRights) : Board :=
  let b0 : Board := {
    grid := List.replicate 196 none
    pieceList := PerColor.mkSame []
    kingLoc := PerColor.mkSame none
    castling := rights
    turn := turn
    hash := 0
    pieceEval := 0
    playerEval := PerColor.mkSame 0
    history := [] }
  let b1 := placements.foldl placeOne b0
  let srt : List PlacedPiece → List PlacedPiece := fun l =>
    l.insertionSort
      (fun a b => moveOrderScore a.piece.type ≤ moveOrderScore b.piece.type)
  let b2 := { b1 with
    pieceList := ⟨srt (b1.pieceList.get .red), srt (b1.pieceList.get .blue),
      srt (b1.pieceList.get .yellow), srt (b1.pieceList.get .green)⟩ }
  initHash b2

end FourPC

namespace FourPC

/-! ## Attack detection (board.cc:776-1186) -/

/-- One sliding direction of `IsAttackedByTeam` with its rook/bishop
flag (board.cc:1091-1107). -/
structure SlideDir where
  dr : Int
  dc : Int
  isRook : Bool

/-- The eight sliding directions in code order (board.cc:1096-1107). -/
def slidingDirections : List SlideDir :=
  [⟨0, 1, true⟩, ⟨1, 0, true⟩, ⟨0, -1, true⟩, ⟨-1, 0, true⟩,
   ⟨1, 1, false⟩, ⟨1, -1, false⟩, ⟨-1, -1, false⟩, ⟨-1, 1, false⟩]

/-- The inner `while (IsLegalLocation(row, col))` walk of one sliding
direction (board.cc:1109-1129), fuel-bounded: a ray starting next to a
legal square leaves the board within 14 steps. -/
def slideHitAux (g : Grid) (team : Team) (d : SlideDir) :
    Int → Int → Nat → Bool
  | _, _, 0 => false
  | r, c, fuel + 1 =>
    if isLegalRC r c then
      match gridGet g r c with
      | some p =>
        decide (p.team = team) &&
          (decide (p.type = .queen) ||
           (d.isRook && decide (p.type = .rook)) ||
           (!d.isRook && decide (p.type = .bishop)))
      | none => slideHitAux g team d (r + d.dr) (c + d.dc) fuel
    else false

/-- The knight offsets of `IsAttackedByTeam` (board.cc:1132-1134). -/
def knightOffsets : List (Int × Int) :=
  [(1, 2), (1, -2), (-1, 2), (-1, -2), (2, 1), (2, -1), (-2, 1), (-2, -1)]

/-- The pawn-attack offset table of `IsAttackedByTeam` with the color
mask each entry requires (board.cc:1150-1167), in code order.  Note the
offsets probe the square *in front of* each pawn color's attack
direction (e.g. RED entries look at `loc_row - 1` although a red pawn
attacks from `loc_row + 1`). -/
def pawnAttackProbes : List (Int × Int × PlayerColor) :=
  [(-1, -1, .red), (-1, 1, .red),
   (1, -1, .yellow), (1, 1, .yellow),
   (-1, 1, .blue), (1, 1, .blue),
   (-1, -1, .green), (1, -1, .green)]

/-- `Board::IsAttackedByTeam` (board.cc:1086-1186): sliding pieces,
knights, then the pawn probe table — and no king section at all. -/
def isAttackedByTeam (g : Grid) (team : Team) (l : Loc) : Bool :=
  (slidingDirections.any fun d =>
    slideHitAux g team d (l.row + d.dr) (l.col + d.dc) 14) ||
  (knightOffsets.any fun rc =>
    let r := l.row + rc.1
    let c := l.col + rc.2
    isLegalRC r c &&
      match gridGet g r c with
      | some p => decide (p.team = team) && decide (p.type = .knight)
      | none => false) ||
  (pawnAttackProbes.any fun e =>
    let r := l.row + e.1
    let c := l.col + e.2.1
    isLegalRC r c &&
      match gridGet g r c with
      | some p =>
        decide (p.team = team) && decide (p.type = .pawn) &&
          decide (p.color = e.2.2)
      | none => false)

/-- `Board::PawnAttacks` (board.cc:874-893): direction-correct diagonal
pawn attack (RED toward decreasing row, BLUE increasing col, YELLOW
increasing row, GREEN decreasing col). -/
def pawnAttacks (pawnLoc : Loc) (pawnColor : PlayerColor) (other : Loc) :
    Bool :=
  let rowDiff := other.row - pawnLoc.row
  let colDiff := other.col - pawnLoc.col
  match pawnColor with
  | .red => decide (rowDiff = -1) && decide (colDiff.natAbs = 1)
  | .blue => decide (colDiff = 1) && decide (rowDiff.natAbs = 1)
  | .yellow => decide (rowDiff = 1) && decide (colDiff.natAbs = 1)
  | .green => decide (colDiff = -1) && decide (rowDiff.natAbs = 1)

/-- `Board::KingAttacks` (board.cc:855-863): note it tests Manhattan
distance `< 2`, which covers only the four orthogonal neighbours. -/
def kingAttacks (kingLoc other : Loc) : Bool :=
  (kingLoc.row - other.row).natAbs + (kingLoc.col - other.col).natAbs < 2

/-- `Board::KnightAttacks` (board.cc:865-872). -/
def knightAttacks (knightLoc other : Loc) : Bool :=
  let ar := (knightLoc.row - other.row).natAbs
  let ac := (knightLoc.col - other.col).natAbs
  (ar = 1 && ac = 2) || (ar = 2 && ac = 1)

/-- One ray of `GetAttackers2`'s sliding scan (board.cc:920-935,
945-960): walk until a piece or the board edge; report the piece if its
team and type match. -/
def attackerOnRay (g : Grid) (team : Team) (noTeam : Bool)
    (t1 t2 : PieceType) (dr dc : Int) :
    Int → Int → Nat → Option PlacedPiece
  | _, _, 0 => none
  | r, c, fuel + 1 =>
    if isLegalRC r c then
      match gridGet g r c with
      | some p =>
        if (p.team = team || noTeam) && (p.type = t1 || p.type = t2) then
          some ⟨⟨r, c⟩, p⟩
        else none
      | none => attackerOnRay g team noTeam t1 t2 dr dc (r + dr) (c + dc) fuel
    else none

/-- The rook directions of `GetAttackers2` (board.cc:913-918). -/
def attackerRookDirs : List (Int × Int) := [(0, 1), (1, 0), (0, -1), (-1, 0)]

/-- The bishop directions of `GetAttackers2` (board.cc:938-943). -/
def attackerBishopDirs : List (Int × Int) :=
  [(1, 1), (1, -1), (-1, -1), (-1, 1)]

/-- The per-color pawn probes of `GetAttackers2` (board.cc:984-1061):
red pawns are sought *below* the square, yellow above, blue to the
left, green to the right — the direction-correct probes. -/
def attackerPawnProbes : List (Int × Int × PlayerColor) :=
  [(1, -1, .red), (1, 1, .red),
   (-1, -1, .yellow), (-1, 1, .yellow),
   (-1, -1, .blue), (1, -1, .blue),
   (-1, 1, .green), (1, 1, .green)]

/-- The king scan offsets of `GetAttackers2` (board.cc:1063-1080): all
eight neighbours, in the row-major loop order skipping (0,0). -/
def attackerKingOffsets : List (Int × Int) :=
  [(-1, -1), (-1, 0), (-1, 1), (0, -1), (0, 1), (1, -1), (1, 0), (1, 1)]

/-- `Board::GetAttackers2` (board.cc:895-1083): rook/queen rays, then
bishop/queen rays, then knights (raw 0..13 bounds check), then pawns
(direction-correct), then kings (all eight neighbours).  The C++
early-returns once `limit` entries are written, which equals taking the
first `limit` attackers of the full scan order. -/
def getAttackers2 (g : Grid) (limit : Nat) (team : Team) (l : Loc) :
    List PlacedPiece :=
  let noTeam := false
  let rooks := attackerRookDirs.filterMap fun d =>
    attackerOnRay g team noTeam .rook .queen d.1 d.2
      (l.row + d.1) (l.col + d.2) 14
  let bishops := attackerBishopDirs.filterMap fun d =>
    attackerOnRay g team noTeam .bishop .queen d.1 d.2
      (l.row + d.1) (l.col + d.2) 14
  let knights := knightOffsets.filterMap fun rc =>
    let r := l.row + rc.1
    let c := l.col + rc.2
    if inBoundsRC r c then
      match gridGet g r c with
      | some p =>
        if p.team = team && p.type = .knight then some ⟨⟨r, c⟩, p⟩ else none
      | none => none
    else none
  let pawns := attackerPawnProbes.filterMap fun e =>
    let r := l.row + e.1
    let c := l.col + e.2.1
    if inBoundsRC r c then
      match gridGet g r c with
      | some p =>
        if p.team = team && p.type = .pawn && p.color = e.2.2 then
          some ⟨⟨r, c⟩, p⟩
        else none
      | none => none
    else none
  let kings := attackerKingOffsets.filterMap fun rc =>
    let r := l.row + rc.1
    let c := l.col + rc.2
    if isLegalRC r c then
      match gridGet g r c with
      | some p =>
        if (p.team = team || noTeam) && p.type = .king then
          some ⟨⟨r, c⟩, p⟩
        else none
      | none => none
    else none
  (rooks ++ bishops ++ knights ++ pawns ++ kings).take limit

/-- `Board::IsKingInCheck(const Player&)` (board.cc:1406-1414): an
absent king is never in check; otherwise delegate to
`IsAttackedByTeam` with the opposing team. -/
def isKingInCheck (b : Board) (p : PlayerColor) : Bool :=
  match b.kingLoc.get p with
  | none => false
  | some kl => isAttackedByTeam b.grid (otherTeam p.team) kl

/-- `Board::CheckWasLastMoveKingCapture` (board.cc:1423-1433). -/
inductive GameResult where
  | inProgress
  | winRY
  | winBG
  | stalemate
deriving DecidableEq, Repr

/-- `CheckWasLastMoveKingCapture`: if the most recent move captured a
king, the team that lost it loses. -/
def checkWasLastMoveKingCapture (b : Board) : GameResult :=
  match b.history with
  | [] => .inProgress
  | m :: _ =>
    match m.capture with
    | some cap =>
      if cap.type = .king then
        if cap.team = .ry then .winBG else .winRY
      else .inProgress
    | none => .inProgress

end FourPC

namespace FourPC

/-! ## Test scaffolding: concrete grids for the claim instances -/

/-- Build a grid from a placement list (test scaffolding for concrete
claim instances; board construction proper is `mkBoard`). -/
def gridOf (pl : List (Loc × PieceData)) : Grid :=
  pl.foldl (fun g lp => gridSetL g lp.1 (some lp.2)) (List.replicate 196 none)

/-- A lone blue king at (5,5). -/
def gBlueKing : Grid := gridOf [(⟨5, 5⟩, ⟨.blue, .king⟩)]

/-- A lone red pawn at (6,4). -/
def gRedPawnBelow : Grid := gridOf [(⟨6, 4⟩, ⟨.red, .pawn⟩)]

/-- A lone red pawn at (4,4). -/
def gRedPawnAbove : Grid := gridOf [(⟨4, 4⟩, ⟨.red, .pawn⟩)]

/-- C5: `IsAttackedByTeam` disagrees with the piece attack rules and
with `GetAttackers2` (its own documented reference): a blue king
adjacent to (5,6) is not reported although `GetAttackers2` finds it; a
red pawn at (6,4), which attacks (5,5) per `PawnAttacks`, is not
reported although `GetAttackers2` finds it; a red pawn at (4,4), which
does *not* attack (5,5) per `PawnAttacks`, *is* reported; and
`KingAttacks` itself rejects diagonal adjacency. -/
theorem c5_isAttackedByTeam_code_bug :
    (isAttackedByTeam gBlueKing .bg ⟨5, 6⟩ = false ∧
      getAttackers2 gBlueKing 5 .bg ⟨5, 6⟩ = [⟨⟨5, 5⟩, ⟨.blue, .king⟩⟩]) ∧
    (pawnAttacks ⟨6, 4⟩ .red ⟨5, 5⟩ = true ∧
      isAttackedByTeam gRedPawnBelow .ry ⟨5, 5⟩ = false ∧
      getAttackers2 gRedPawnBelow 5 .ry ⟨5, 5⟩ =
        [⟨⟨6, 4⟩, ⟨.red, .pawn⟩⟩]) ∧
    (pawnAttacks ⟨4, 4⟩ .red ⟨5, 5⟩ = false ∧
      isAttackedByTeam gRedPawnAbove .ry ⟨5, 5⟩ = true) ∧
    kingAttacks ⟨5, 5⟩ ⟨4, 4⟩ = false := by
  decide

end FourPC

namespace FourPC

/-! ## Pseudo-legal move generation (board.cc:135-350, 464-505,
1246-1370, 2320-2682) -/

/-- One sliding-move ray shared by `GetRookMovesDirect`
(board.cc:2358-2382) and `GetBishopMovesDirect` (board.cc:2400-2417):
walk until an occupied square or the board edge; a non-teammate piece
is captured and ends the ray; a teammate blocks silently.  The `limit`
parameters of the C++ functions are unused there (no bound check), so
the walk is unbounded up to the edge; 14 steps of fuel always reach it. -/
def rayMovesAux (g : Grid) (f : Loc) (color : PlayerColor) (dr dc : Int) :
    Int → Int → Nat → List Move
  | _, _, 0 => []
  | r, c, fuel + 1 =>
    if isLegalRC r c then
      match gridGet g r c with
      | some cap =>
        if cap.color ≠ color ∧ cap.color ≠ teammateColor color then
          [{ fromLoc := f, toLoc := ⟨r, c⟩, capture := some cap }]
        else []
      | none =>
        { fromLoc := f, toLoc := ⟨r, c⟩ } ::
          rayMovesAux g f color dr dc (r + dr) (c + dc) fuel
    else []

/-- One full ray starting next to `f`. -/
def rayMoves (g : Grid) (f : Loc) (color : PlayerColor) (dr dc : Int) :
    List Move :=
  rayMovesAux g f color dr dc (f.row + dr) (f.col + dc) 14

/-- `kRookDirections` (board.cc:2338-2343): Right, Left, Down, Up. -/
def rookMoveDirs : List (Int × Int) := [(0, 1), (0, -1), (1, 0), (-1, 0)]

/-- `GetRookMovesDirect` (board.cc:2345-2385). -/
def rookMovesDirect (g : Grid) (f : Loc) (color : PlayerColor) : List Move :=
  rookMoveDirs.flatMap fun d => rayMoves g f color d.1 d.2

/-- The bishop directions (board.cc:2400). -/
def bishopMoveDirs : List (Int × Int) := [(1, 1), (1, -1), (-1, 1), (-1, -1)]

/-- `GetBishopMovesDirect` (board.cc:2387-2420). -/
def bishopMovesDirect (g : Grid) (f : Loc) (color : PlayerColor) :
    List Move :=
  bishopMoveDirs.flatMap fun d => rayMoves g f color d.1 d.2

/-- The knight deltas of `GetKnightMovesDirect` (board.cc:481-484). -/
def knightMoveDeltas : List (Int × Int) :=
  [(2, 1), (2, -1), (-2, 1), (-2, -1), (1, 2), (1, -2), (-1, 2), (-1, -2)]

/-- `GetKnightMovesDirect` (board.cc:464-505).  Its `limit` parameter is
unused (the bound checks are commented out in the source). -/
def knightMovesDirect (g : Grid) (f : Loc) (color : PlayerColor) :
    List Move :=
  knightMoveDeltas.flatMap fun d =>
    let r := f.row + d.1
    let c := f.col + d.2
    if isLegalRC r c then
      match gridGet g r c with
      | some cap =>
        if cap.color ≠ color ∧ cap.color ≠ teammateColor color then
          [{ fromLoc := f, toLoc := ⟨r, c⟩, capture := some cap }]
        else []
      | none => [{ fromLoc := f, toLoc := ⟨r, c⟩ }]
    else []

/-- `kPawnDirections` (board.cc:224-233): forward delta and the two
capture deltas per color. -/
def pawnDirData : PlayerColor → (Int × Int) × (Int × Int) × (Int × Int)
  | .red => ((-1, 0), (-1, -1), (-1, 1))
  | .blue => ((0, 1), (-1, 1), (1, 1))
  | .yellow => ((1, 0), (1, -1), (1, 1))
  | .green => ((0, -1), (-1, -1), (1, -1))

/-- `not_moved` of `GetPawnMovesDirect` (board.cc:270-276): the
per-color starting rank/file. -/
def pawnNotMoved (f : Loc) : PlayerColor → Bool
  | .red => f.row = 12
  | .blue => f.col = 1
  | .yellow => f.row = 1
  | .green => f.col = 12

/-- `GetPawnMovesDirect` (board.cc:135-350).  Faithful to the shipped
code: the promotion expansion and the en-passant generation are
commented out there, so a single plain move is emitted in every case;
and when the forward square is off the board the emitted forward move
carries `kNoLocation` as its destination (the caller's validity check
then aborts). -/
def pawnMovesDirect (g : Grid) (f : Loc) (color : PlayerColor) :
    List Move :=
  let dir := pawnDirData color
  let fr := f.row + dir.1.1
  let fc := f.col + dir.1.2
  let isForwardLegal := isLegalRC fr fc
  let forward1 : Loc := if isForwardLegal then ⟨fr, fc⟩ else kNoLocation
  let forwardPiece : Piece := if isForwardLegal then gridGet g fr fc else none
  let c1r := f.row + dir.2.1.1
  let c1c := f.col + dir.2.1.2
  let c2r := f.row + dir.2.2.1
  let c2c := f.col + dir.2.2.2
  let forwardPart : List Move :=
    match forwardPiece with
    | some _ => []
    | none =>
      { fromLoc := f, toLoc := forward1 } ::
        (if pawnNotMoved f color then
          let f2r := f.row + dir.1.1 * 2
          let f2c := f.col + dir.1.2 * 2
          match gridGet g f2r f2c with
          | some _ => []
          | none =>
            [{ fromLoc := f, toLoc := ⟨f2r, f2c⟩, enpLoc := some ⟨fr, fc⟩ }]
        else [])
  let capPart : Int → Int → List Move := fun cr cc =>
    if isLegalRC cr cc then
      match gridGet g cr cc with
      | some cap =>
        if cap.color ≠ color ∧ cap.color ≠ teammateColor color then
          [{ fromLoc := f, toLoc := ⟨cr, cc⟩, capture := some cap }]
        else []
      | none => []
    else []
  forwardPart ++ capPart c1r c1c ++ capPart c2r c2c

/-- One non-castling king step of `GetKingMovesDirect`.  The four
diagonal blocks (board.cc:2442-2476) attach the castling-rights
snapshots to the move; the four orthogonal blocks (board.cc:2478-2679)
do not, and their castling generation is entirely commented out. -/
def kingStep (g : Grid) (f : Loc) (color : PlayerColor)
    (rights : CastlingRights) (d : Int × Int) (diag : Bool) : List Move :=
  let r := f.row + d.1
  let c := f.col + d.2
  if isLegalRC r c then
    match gridGet g r c with
    | some cap =>
      if cap.color ≠ color ∧ cap.color ≠ teammateColor color then
        if diag then
          [{ fromLoc := f, toLoc := ⟨r, c⟩, capture := some cap,
             initialRights := some rights, newRights := some ⟨false, false⟩ }]
        else [{ fromLoc := f, toLoc := ⟨r, c⟩, capture := some cap }]
      else []
    | none =>
      if diag then
        [{ fromLoc := f, toLoc := ⟨r, c⟩,
           initialRights := some rights, newRights := some ⟨false, false⟩ }]
      else [{ fromLoc := f, toLoc := ⟨r, c⟩ }]
  else []

/-- `GetKingMovesDirect` (board.cc:2422-2682), in source block order:
up-left, up-right, down-left, down-right, up, left, right, down. -/
def kingMovesDirect (g : Grid) (f : Loc) (color : PlayerColor)
    (rights : CastlingRights) : List Move :=
  kingStep g f color rights (-1, -1) true ++
  kingStep g f color rights (-1, 1) true ++
  kingStep g f color rights (1, -1) true ++
  kingStep g f color rights (1, 1) true ++
  kingStep g f color rights (-1, 0) false ++
  kingStep g f color rights (0, -1) false ++
  kingStep g f color rights (0, 1) false ++
  kingStep g f color rights (1, 0) false

/-- The per-piece dispatch of `GetPseudoLegalMoves2`
(board.cc:1309-1324).  QUEEN generates bishop moves then rook moves.
The `NO_PIECE` default hits `assert(false)` in the source; a coherent
piece list never contains it, and the embedding emits nothing. -/
def pieceMovesDirect (b : Board) (l : Loc) (p : PieceData) : List Move :=
  match p.type with
  | .queen => bishopMovesDirect b.grid l p.color ++
      rookMovesDirect b.grid l p.color
  | .rook => rookMovesDirect b.grid l p.color
  | .bishop => bishopMovesDirect b.grid l p.color
  | .pawn => pawnMovesDirect b.grid l p.color
  | .knight => knightMovesDirect b.grid l p.color
  | .king => kingMovesDirect b.grid l p.color (b.castling.get p.color)
  | .noPiece => []

/-- The per-piece loop of `GetPseudoLegalMoves2` (board.cc:1294-1337):
process pieces while the buffer still has room (`current < end`); each
piece's generator then appends *unbounded* (the Direct generators
ignore the remaining capacity); after each piece the generated moves
are validity-checked and an illegal from/to aborts the process
(`std::abort`, modelled as `none`). -/
def genLoop (b : Board) (limit : Nat) :
    List PlacedPiece → List Move → Option (List Move)
  | [], acc => some acc
  | pp :: rest, acc =>
    if acc.length < limit then
      let new := pieceMovesDirect b pp.loc pp.piece
      if new.all (fun m => m.fromLoc.isLegal && m.toLoc.isLegal) then
        genLoop b limit rest (acc ++ new)
      else none
    else some acc

/-- The result of `GetPseudoLegalMoves2`: the generated moves (the
buffer contents; `count` is their length) and the index of the PV move
among them, if found (`pv_index`, `-1` modelled as `none`).  The
mobility/threat counters are not modelled (no claim mentions them). -/
structure MoveGenResult where
  moves : List Move
  pvIndex : Option Nat
deriving DecidableEq, Repr

/-- `Board::GetPseudoLegalMoves2` (board.cc:1246-1370) on a non-null
buffer: `limit = 0` returns an empty result without generating;
otherwise iterate the side to move's piece list and scan the buffer for
the PV move (board.cc:1345-1352). -/
def getPseudoLegalMoves2 (b : Board) (limit : Nat) (pv : Option Move) :
    Option MoveGenResult :=
  if limit = 0 then some ⟨[], none⟩
  else
    match genLoop b limit (b.pieceList.get b.turn) [] with
    | none => none
    | some ms =>
      some ⟨ms, match pv with
                | none => none
                | some p => ms.findIdx? (· = p)⟩

end FourPC

namespace FourPC

/-- No castling rights for any color (test scaffolding). -/
def noRights : PerColor CastlingRights := PerColor.mkSame ⟨false, false⟩

/-- A board with a single red knight at (7,7), red to move. -/
def knightBoard : Board := mkBoard [(⟨7, 7⟩, ⟨.red, .knight⟩)] .red noRights

/-- C3: with `limit = 1` the knight's generator still writes all 8 of
its moves into the buffer (indices 0..7, past the limit) and the
returned count is 8 > 1: the knight, pawn and king Direct generators
ignore the remaining buffer capacity (their bound checks are commented
out), so `GetPseudoLegalMoves2` violates its buffer bound. -/
theorem c3_limit_overflow :
    (getPseudoLegalMoves2 knightBoard 1 none).map (·.moves.length) =
      some 8 ∧ 1 < 8 := by
  constructor
  · decide
  · decide

/-- A board with a single red pawn at (4,6), red to move; its forward
step reaches row 3, RED's promotion rank. -/
def promoBoard : Board := mkBoard [(⟨4, 6⟩, ⟨.red, .pawn⟩)] .red noRights

/-- C6: the pawn move onto RED's promotion rank generated by
`GetPseudoLegalMoves2` is a single move with no promotion piece type,
not the four KNIGHT/BISHOP/ROOK/QUEEN expansions: `GetPawnMovesDirect`
ships with the promotion expansion commented out (the expansion exists
only in `AddPawnMoves2`, which this code path does not call). -/
theorem c6_no_promotion_generated :
    getPseudoLegalMoves2 promoBoard 300 none =
      some ⟨[{ fromLoc := ⟨4, 6⟩, toLoc := ⟨3, 6⟩ }], none⟩ ∧
    (getPseudoLegalMoves2 promoBoard 300 none).map
      (fun r => r.moves.all (·.promo = .noPiece)) = some true := by
  constructor
  · decide
  · decide

end FourPC

namespace FourPC

/-! ## Search terminal scoring (player.cc:698-739) -/

/-- Modelled from the spec: `kMateValue` (declared in the missing
`player.h`), the large positive mate constant.  The claims use only its
sign and magnitude relative to the windows in play, not its value. -/
def kMateValue : Int := 1000000

/-- The no-legal-move scoring of `AlphaBetaPlayer::Search`
(player.cc:703-739): `score = alpha` and, when the move loop found no
legal move, `score = std::min(beta, std::max(alpha, -kMateValue))`.
The side to move's check status (`in_check`, player.cc:310) is
available but unused: the stalemate branch is commented out, so the
parameter is ignored, faithful to the shipped code. -/
def searchNoLegalMoveScore (alpha beta : Int) (_inCheck : Bool) : Int :=
  min beta (max alpha (-kMateValue))

/-- The claim's (C7 / spec §4.5) scoring of a no-legal-move node, for
comparison: 0 clamped into the window for stalemate, the mate value
clamped for checkmate. -/
def claimNoLegalMoveScore (alpha beta : Int) (inCheck : Bool) : Int :=
  if inCheck then min beta (max alpha (-kMateValue))
  else min beta (max alpha 0)

/-- C7 counterexample: at a no-legal-move node with window [-100, 100]
and the side to move *not* in check, `Search` returns -100 (the clamped
mate value), not the claimed stalemate score 0. -/
theorem c7_stalemate_counterexample :
    searchNoLegalMoveScore (-100) 100 false = -100 ∧
    claimNoLegalMoveScore (-100) 100 false = 0 ∧
    searchNoLegalMoveScore (-100) 100 false ≠
      claimNoLegalMoveScore (-100) 100 false := by
  refine ⟨by decide, by decide, by decide⟩

/-- C7 amended: whenever no legal move is found, `Search` scores the
node `min(beta, max(alpha, -kMateValue))` regardless of whether the
side to move is in check (stalemate and checkmate share the clamp); the
claim's prediction is correct exactly in the in-check (checkmate)
case. -/
theorem c7_no_legal_moves_scored_as_mate (alpha beta : Int) :
    (∀ c₁ c₂ : Bool, searchNoLegalMoveScore alpha beta c₁ =
      searchNoLegalMoveScore alpha beta c₂) ∧
    searchNoLegalMoveScore alpha beta true =
      claimNoLegalMoveScore alpha beta true ∧
    searchNoLegalMoveScore alpha beta false =
      min beta (max alpha (-kMateValue)) := by
  refine ⟨fun _ _ => rfl, rfl, rfl⟩

/-! ## Iterative deepening driver (player.cc:1141-1268) -/

/-- One depth's result of the recursive `Search` call: evaluation and
best move, or `none` when the deadline expired / cancellation was
requested (player.cc:245-249). -/
abbrev SearchResult := Int × Option Move

/-- The iterative-deepening while loop of `MakeMoveSingleThread` with
aspiration windows disabled (player.cc:1238-1255): search the current
depth; on an absent result keep `res`/`searched_depth` from the last
completed depth; otherwise record the result, stop on a proven mate,
else deepen.  `search` abstracts what the `Search` call returned at
each depth; the fuel argument only bounds the recursion and is chosen
so the `next_depth <= max_depth` guard always exits first. -/
def idLoop (search : Nat → Option SearchResult) (maxDepth : Nat) :
    Nat → Nat → Option SearchResult → Nat → Option SearchResult × Nat
  | 0, _, res, sd => (res, sd)
  | fuel + 1, nd, res, sd =>
    if nd ≤ maxDepth then
      match search nd with
      | none => (res, sd)
      | some v =>
        if v.1 = kMateValue ∨ v.1 = -kMateValue then (some v, nd)
        else idLoop search maxDepth fuel (nd + 1) (some v) nd
    else (res, sd)

/-- `AlphaBetaPlayer::MakeMoveSingleThread` (player.cc:1141-1268) with
aspiration windows disabled: start at `min(1 + pv_info.GetDepth(),
max_depth)` (player.cc:1150), run the deepening loop, and on success
return the evaluation (negated for the minimizing side, player.cc:
1259-1264), the best move and the searched depth.  (`MakeMove`,
player.cc:1126/1138, returns thread 0's result of this function.) -/
def makeMoveSingleThread (search : Nat → Option SearchResult)
    (pvDepth maxDepth : Nat) (maximizing : Bool) :
    Option (Int × Option Move × Nat) :=
  let startDepth := min (1 + pvDepth) maxDepth
  let r := idLoop search maxDepth (maxDepth + 2) startDepth none 0
  r.1.map fun em => (if maximizing then em.1 else -em.1, em.2, r.2)

end FourPC

namespace FourPC

/-- Helper: the deepening loop, told that every depth from `nd` to `D`
completed with a non-mate score and that depth `D+1` hit the deadline,
returns depth `D`'s result with searched depth `D`. -/
theorem idLoop_deadline (search : Nat → Option SearchResult)
    (maxDepth D : Nat) (hd : D + 1 ≤ maxDepth)
    (hfail : search (D + 1) = none) :
    ∀ fuel nd res sd, nd ≤ D → D + 2 ≤ fuel + nd →
    (∀ d, nd ≤ d → d ≤ D → ∃ v, search d = some v ∧
      v.1 ≠ kMateValue ∧ v.1 ≠ -kMateValue) →
    idLoop search maxDepth fuel nd res sd = (search D, D) := by
  intro fuel
  induction fuel with
  | zero => intro nd res sd h1 h2 _; omega
  | succ fuel ih =>
    intro nd res sd h1 h2 hall
    obtain ⟨v, hv, hm1, hm2⟩ := hall nd le_rfl h1
    simp only [idLoop]
    rw [if_pos (by omega), hv]
    simp only []
    rw [if_neg (by simp [hm1, hm2])]
    rcases eq_or_lt_of_le h1 with heq | hlt
    · subst heq
      obtain ⟨fuel', rfl⟩ : ∃ f', fuel = f' + 1 := ⟨fuel - 1, by omega⟩
      simp only [idLoop]
      rw [if_pos (by omega), hfail, hv]
    · exact ih (nd + 1) (some v) nd (by omega) (by omega)
        (fun d hd1 hd2 => hall d (by omega) hd2)

/-- Helper: once some depth has completed, the loop can no longer
return an absent result. -/
theorem idLoop_some_propagates (search : Nat → Option SearchResult)
    (maxDepth : Nat) :
    ∀ fuel nd res sd, res.isSome →
    (idLoop search maxDepth fuel nd res sd).1.isSome := by
  intro fuel
  induction fuel with
  | zero => intro nd res sd h; exact h
  | succ fuel ih =>
    intro nd res sd h
    simp only [idLoop]
    split
    · rcases hs : search nd with _ | v
      · exact h
      · change (if v.1 = kMateValue ∨ v.1 = -kMateValue then (some v, nd)
            else idLoop search maxDepth fuel (nd + 1) (some v) nd).1.isSome
            = true
        split
        · rfl
        · exact ih (nd + 1) (some v) nd rfl
    · exact h

/-- C8: if every depth from the starting depth up to `D` completed with
a non-mate result and the `Search` call at depth `D+1` returned absent
(deadline or cancellation), then `MakeMoveSingleThread` returns exactly
the (evaluation, best move, depth) triple obtained from depth `D`
(evaluation sign-adjusted for the minimizing side); and in general the
driver returns absent only when the very first depth it attempts
already returned absent, i.e. when no depth completed at all. -/
theorem c8_deepening_keeps_completed_depth
    (search : Nat → Option SearchResult) (pvDepth maxDepth D : Nat)
    (maximizing : Bool) (hstart : min (1 + pvDepth) maxDepth ≤ D)
    (hmax : D + 1 ≤ maxDepth)
    (hall : ∀ d, min (1 + pvDepth) maxDepth ≤ d → d ≤ D →
      ∃ v, search d = some v ∧ v.1 ≠ kMateValue ∧ v.1 ≠ -kMateValue)
    (hfail : search (D + 1) = none) :
    makeMoveSingleThread search pvDepth maxDepth maximizing =
      (search D).map
        (fun em => (if maximizing then em.1 else -em.1, em.2, D)) ∧
    (∀ (s' : Nat → Option SearchResult) (pv' max' : Nat) (b' : Bool),
      makeMoveSingleThread s' pv' max' b' = none →
      s' (min (1 + pv') max') = none) := by
  constructor
  · have h := idLoop_deadline search maxDepth D hmax hfail (maxDepth + 2)
      (min (1 + pvDepth) maxDepth) none 0 hstart (by omega) hall
    simp only [makeMoveSingleThread, h]
  · intro s' pv' max' b' hnone
    rcases hs : s' (min (1 + pv') max') with _ | v
    · rfl
    · exfalso
      simp only [makeMoveSingleThread, Option.map_eq_none'] at hnone
      have h1 : min (1 + pv') max' ≤ max' := min_le_right _ _
      have hstep : idLoop s' max' (max' + 2) (min (1 + pv') max') none 0 =
          if min (1 + pv') max' ≤ max' then
            match s' (min (1 + pv') max') with
            | none => (none, 0)
            | some v =>
              if v.1 = kMateValue ∨ v.1 = -kMateValue
              then (some v, min (1 + pv') max')
              else idLoop s' max' (max' + 1) (min (1 + pv') max' + 1)
                (some v) (min (1 + pv') max')
          else (none, 0) := rfl
      rw [hstep, if_pos h1, hs] at hnone
      have hnone2 : (if v.1 = kMateValue ∨ v.1 = -kMateValue
            then (some v, min (1 + pv') max')
            else idLoop s' max' (max' + 1) (min (1 + pv') max' + 1) (some v)
              (min (1 + pv') max')).1 = none := hnone
      split at hnone2
      · simp at hnone2
      · have hsome := idLoop_some_propagates s' max' (max' + 1)
          (min (1 + pv') max' + 1) (some v) (min (1 + pv') max') rfl
        rw [hnone2] at hsome
        simp at hsome

end FourPC

namespace FourPC

/-- A concrete search log: depths 1 and 2 complete, depth 3 hits the
deadline. -/
def c8SearchFn : Nat → Option SearchResult :=
  fun d => if d ≤ 2 then some ((d : Int), none) else none

/-- Witness for C8 at a concrete instance: with depths 1-2 completed
and depth 3 absent, the driver returns depth 2's triple. -/
theorem c8_witness :
    makeMoveSingleThread c8SearchFn 0 5 true = some ((2 : Int), none, 2) := by
  have h := (c8_deepening_keeps_completed_depth c8SearchFn 0 5 2 true
    (by decide) (by decide)
    (fun d h1 h2 => ⟨((d : Int), none), by simp [c8SearchFn, h2],
      by simp only [kMateValue]; omega, by simp only [kMateValue]; omega⟩)
    (by decide)).1
  rw [h]
  decide

end FourPC

namespace FourPC

/-! ## Move picker (move_picker2.h:26-263) -/

/-- `MovePicker2` (move_picker2.h:26-40) in the configuration without
continuation-history tables (`cont_hist == nullptr`): in that
configuration phase 3 never sorts, `move_indices` stays the identity,
and the remaining moves are served in buffer order, so only the listed
fields are observable. -/
structure MovePicker2 where
  moves : List Move
  current : Nat
  pvMove : Option Move
  killer1 : Option Move
  killer2 : Option Move
  phase : Nat
deriving DecidableEq, Repr

/-- `InitMovePicker2` (move_picker2.h:43-73): phase 0, current 0.
The nullable `pv_move`/`killer` pointers are `Option`s. -/
def initMovePicker2 (moves : List Move) (pv k1 k2 : Option Move) :
    MovePicker2 :=
  ⟨moves, 0, pv, k1, k2, 0⟩

/-- `MoveExists(moves, start, count, move)` (move_picker2.h:76-83):
linear scan of the unconsumed range `[start, count)`. -/
def moveExists (moves : List Move) (start : Nat) (m : Move) : Bool :=
  (moves.drop start).any (· == m)

/-- Phase 3 of `GetNextMove2` (move_picker2.h:124-257) without
continuation history: serve `moves[current]` and advance, or finish. -/
def pickPhase3 (p : MovePicker2) : Option Move × MovePicker2 :=
  match p.moves[p.current]? with
  | some m => (some m, { p with current := p.current + 1 })
  | none => (none, p)

/-- Phase 2 of `GetNextMove2` (move_picker2.h:113-121): serve the
second killer if it differs from the PV move and the first killer and
still appears in the unconsumed list; otherwise fall through. -/
def pickPhase2 (p : MovePicker2) : Option Move × MovePicker2 :=
  let p' := { p with phase := 3 }
  match p.killer2 with
  | some m =>
    if (p.pvMove != some m) && (p.killer1 != some m) &&
        moveExists p.moves p.current m
    then (some m, p') else pickPhase3 p'
  | none => pickPhase3 p'

/-- Phase 1 of `GetNextMove2` (move_picker2.h:102-110). -/
def pickPhase1 (p : MovePicker2) : Option Move × MovePicker2 :=
  let p' := { p with phase := 2 }
  match p.killer1 with
  | some m =>
    if (p.pvMove != some m) && moveExists p.moves p.current m
    then (some m, p') else pickPhase2 p'
  | none => pickPhase2 p'

/-- Phase 0 of `GetNextMove2` (move_picker2.h:90-99): always serve the
PV move when present; skip it in the main list only when it sits
exactly at index `current`. -/
def pickPhase0 (p : MovePicker2) : Option Move × MovePicker2 :=
  let p' := { p with phase := 1 }
  match p.pvMove with
  | some m =>
    if p'.moves[p'.current]? = some m then
      (some m, { p' with current := p'.current + 1 })
    else (some m, p')
  | none => pickPhase1 p'

/-- `GetNextMove2` (move_picker2.h:86-263): the `while(true)`/`switch`
with fallthrough, dispatched on the stored phase. -/
def getNextMove2 (p : MovePicker2) : Option Move × MovePicker2 :=
  if p.phase = 0 then pickPhase0 p
  else if p.phase = 1 then pickPhase1 p
  else if p.phase = 2 then pickPhase2 p
  else pickPhase3 p

/-- Repeatedly call `GetNextMove2` until it returns null, collecting
the served moves.  The fuel only bounds the recursion: each served move
either advances the phase or consumes a list index, so `count + 4`
calls always suffice. -/
def pickAllAux : Nat → MovePicker2 → List Move
  | 0, _ => []
  | fuel + 1, p =>
    match getNextMove2 p with
    | (none, _) => []
    | (some m, p') => m :: pickAllAux fuel p'

/-- All moves served by a picker, in order. -/
def pickAll (p : MovePicker2) : List Move :=
  pickAllAux (p.moves.length + 4) p

end FourPC


namespace FourPC

/-- Helper: two pickers with the same `GetNextMove2` outcome serve the
same moves. -/
theorem pickAllAux_congr (p q : MovePicker2) (fuel : Nat)
    (h : getNextMove2 p = getNextMove2 q) :
    pickAllAux fuel p = pickAllAux fuel q := by
  cases fuel with
  | zero => rfl
  | succ fuel => simp only [pickAllAux, h]

/-- Helper: from phase 3 the picker drains the unconsumed tail of the
move list in order. -/
theorem pickAllAux_phase3 (moves : List Move) (pv k1 k2 : Option Move) :
    ∀ fuel c, moves.length - c < fuel →
    pickAllAux fuel ⟨moves, c, pv, k1, k2, 3⟩ = moves.drop c := by
  intro fuel
  induction fuel with
  | zero => intro c h; omega
  | succ fuel ih =>
    intro c h
    have hg : getNextMove2 ⟨moves, c, pv, k1, k2, 3⟩ =
        pickPhase3 ⟨moves, c, pv, k1, k2, 3⟩ := rfl
    simp only [pickAllAux, hg, pickPhase3]
    by_cases hc : c < moves.length
    · simp only [List.getElem?_eq_getElem hc]
      rw [ih (c + 1) (by omega), List.drop_eq_getElem_cons hc]
    · simp only [List.getElem?_eq_none (le_of_not_lt hc)]
      rw [List.drop_eq_nil_of_le (le_of_not_lt hc)]

/-- Helper: from phase 2 the picker serves the second-killer emission
(when its guards pass) and then drains the tail. -/
theorem pickAllAux_phase2 (moves : List Move) (pv k1 k2 : Option Move)
    (fuel c : Nat) (h : moves.length - c + 1 < fuel) :
    pickAllAux fuel ⟨moves, c, pv, k1, k2, 2⟩ =
      (match k2 with
       | some m =>
         if (pv != some m) && (k1 != some m) && moveExists moves c m
         then [m] else []
       | none => []) ++ moves.drop c := by
  obtain ⟨fuel', rfl⟩ : ∃ f', fuel = f' + 1 := ⟨fuel - 1, by omega⟩
  match k2 with
  | none =>
    have hc : getNextMove2 ⟨moves, c, pv, k1, none, 2⟩ =
        getNextMove2 ⟨moves, c, pv, k1, none, 3⟩ := rfl
    rw [pickAllAux_congr _ _ _ hc,
      pickAllAux_phase3 moves pv k1 none _ c (by omega)]
    simp
  | some m =>
    by_cases hgd : ((pv != some m) && (k1 != some m) &&
        moveExists moves c m) = true
    · have hstep : getNextMove2 ⟨moves, c, pv, k1, some m, 2⟩ =
          (some m, ⟨moves, c, pv, k1, some m, 3⟩) := by
        have : getNextMove2 ⟨moves, c, pv, k1, some m, 2⟩ =
            pickPhase2 ⟨moves, c, pv, k1, some m, 2⟩ := rfl
        rw [this]
        simp only [pickPhase2]
        rw [if_pos hgd]
      simp only [pickAllAux, hstep]
      rw [pickAllAux_phase3 moves pv k1 (some m) fuel' c (by omega)]
      simp [hgd]
    · have hc : getNextMove2 ⟨moves, c, pv, k1, some m, 2⟩ =
          getNextMove2 ⟨moves, c, pv, k1, some m, 3⟩ := by
        have h2 : getNextMove2 ⟨moves, c, pv, k1, some m, 2⟩ =
            pickPhase2 ⟨moves, c, pv, k1, some m, 2⟩ := rfl
        have h3 : getNextMove2 ⟨moves, c, pv, k1, some m, 3⟩ =
            pickPhase3 ⟨moves, c, pv, k1, some m, 3⟩ := rfl
        rw [h2, h3]
        simp only [pickPhase2]
        rw [if_neg hgd]
      rw [pickAllAux_congr _ _ _ hc,
        pickAllAux_phase3 moves pv k1 (some m) _ c (by omega)]
      simp [hgd]

/-- Helper: from phase 1 the picker serves the two killer emissions and
then drains the tail. -/
theorem pickAllAux_phase1 (moves : List Move) (pv k1 k2 : Option Move)
    (fuel c : Nat) (h : moves.length - c + 2 < fuel) :
    pickAllAux fuel ⟨moves, c, pv, k1, k2, 1⟩ =
      (match k1 with
       | some m =>
         if (pv != some m) && moveExists moves c m then [m] else []
       | none => []) ++
      (match k2 with
       | some m =>
         if (pv != some m) && (k1 != some m) && moveExists moves c m
         then [m] else []
       | none => []) ++ moves.drop c := by
  obtain ⟨fuel', rfl⟩ : ∃ f', fuel = f' + 1 := ⟨fuel - 1, by omega⟩
  match k1 with
  | none =>
    have hc : getNextMove2 ⟨moves, c, pv, none, k2, 1⟩ =
        getNextMove2 ⟨moves, c, pv, none, k2, 2⟩ := rfl
    rw [pickAllAux_congr _ _ _ hc,
      pickAllAux_phase2 moves pv none k2 _ c (by omega)]
    simp
  | some m =>
    by_cases hgd : ((pv != some m) && moveExists moves c m) = true
    · have hstep : getNextMove2 ⟨moves, c, pv, some m, k2, 1⟩ =
          (some m, ⟨moves, c, pv, some m, k2, 2⟩) := by
        have h1 : getNextMove2 ⟨moves, c, pv, some m, k2, 1⟩ =
            pickPhase1 ⟨moves, c, pv, some m, k2, 1⟩ := rfl
        rw [h1]
        simp only [pickPhase1]
        rw [if_pos hgd]
      simp only [pickAllAux, hstep]
      rw [pickAllAux_phase2 moves pv (some m) k2 fuel' c (by omega)]
      simp [hgd]
    · have hc : getNextMove2 ⟨moves, c, pv, some m, k2, 1⟩ =
          getNextMove2 ⟨moves, c, pv, some m, k2, 2⟩ := by
        have h1 : getNextMove2 ⟨moves, c, pv, some m, k2, 1⟩ =
            pickPhase1 ⟨moves, c, pv, some m, k2, 1⟩ := rfl
        have h2 : getNextMove2 ⟨moves, c, pv, some m, k2, 2⟩ =
            pickPhase2 ⟨moves, c, pv, some m, k2, 2⟩ := rfl
        rw [h1, h2]
        simp only [pickPhase1]
        rw [if_neg hgd]
      rw [pickAllAux_congr _ _ _ hc,
        pickAllAux_phase2 moves pv (some m) k2 _ c (by omega)]
      simp [hgd]

end FourPC

namespace FourPC

/-- How many head entries of the list the PV phase consumes: 1 exactly
when the PV move sits at index `current = 0` (move_picker2.h:94-97),
else 0. -/
def pvSkipCount (moves : List Move) (pv : Option Move) : Nat :=
  match pv with
  | some m => if moves[0]? = some m then 1 else 0
  | none => 0

/-- Helper: one served move prepends to the rest of the emission. -/
theorem pickAllAux_cons (fuel : Nat) (p : MovePicker2) (m : Move)
    (p' : MovePicker2) (h : getNextMove2 p = (some m, p')) :
    pickAllAux (fuel + 1) p = m :: pickAllAux fuel p' := by
  simp only [pickAllAux, h]

/-- C9 amended: a freshly initialized picker (without continuation
history) serves: the PV move once whenever one was supplied; killer 1
and killer 2 once each when they differ from the PV move (and each
other) and occur in the unconsumed list; and then *every* remaining
list entry in order — the PV move is removed from the remaining phase
only when it sat at the head of the list, and served killers are not
removed at all, so those moves are served a second time in phase 3. -/
theorem c9_picker_emission (moves : List Move) (pv k1 k2 : Option Move) :
    pickAll (initMovePicker2 moves pv k1 k2) =
      (match pv with | some m => [m] | none => []) ++
      (match k1 with
       | some m =>
         if (pv != some m) && moveExists moves (pvSkipCount moves pv) m
         then [m] else []
       | none => []) ++
      (match k2 with
       | some m =>
         if (pv != some m) && (k1 != some m) &&
            moveExists moves (pvSkipCount moves pv) m
         then [m] else []
       | none => []) ++ moves.drop (pvSkipCount moves pv) := by
  have hfuel : pickAll (initMovePicker2 moves pv k1 k2) =
      pickAllAux (moves.length + 4) ⟨moves, 0, pv, k1, k2, 0⟩ := rfl
  rw [hfuel]
  match pv with
  | none =>
    have hc : getNextMove2 ⟨moves, 0, none, k1, k2, 0⟩ =
        getNextMove2 ⟨moves, 0, none, k1, k2, 1⟩ := rfl
    rw [pickAllAux_congr _ _ _ hc,
      pickAllAux_phase1 moves none k1 k2 _ 0 (by omega)]
    simp [pvSkipCount]
  | some m =>
    rw [show moves.length + 4 = (moves.length + 3) + 1 from rfl]
    by_cases h0 : moves[0]? = some m
    · have hstep : getNextMove2 ⟨moves, 0, some m, k1, k2, 0⟩ =
          (some m, ⟨moves, 1, some m, k1, k2, 1⟩) := by
        have hh : getNextMove2 ⟨moves, 0, some m, k1, k2, 0⟩ =
            pickPhase0 ⟨moves, 0, some m, k1, k2, 0⟩ := rfl
        rw [hh]
        simp only [pickPhase0]
        rw [if_pos h0]
      rw [pickAllAux_cons _ _ _ _ hstep,
        pickAllAux_phase1 moves (some m) k1 k2 _ 1 (by omega)]
      simp [pvSkipCount, h0]
    · have hstep : getNextMove2 ⟨moves, 0, some m, k1, k2, 0⟩ =
          (some m, ⟨moves, 0, some m, k1, k2, 1⟩) := by
        have hh : getNextMove2 ⟨moves, 0, some m, k1, k2, 0⟩ =
            pickPhase0 ⟨moves, 0, some m, k1, k2, 0⟩ := rfl
        rw [hh]
        simp only [pickPhase0]
        rw [if_neg h0]
      rw [pickAllAux_cons _ _ _ _ hstep]
      have hc : getNextMove2 ⟨moves, 0, some m, k1, k2, 1⟩ =
          getNextMove2 ⟨moves, 0, some m, k1, k2, 1⟩ := rfl
      rw [pickAllAux_phase1 moves (some m) k1 k2 _ 0 (by omega)]
      simp [pvSkipCount, h0]

/-- A board with a single red king at (13,3), red to move. -/
def kingCornerBoard : Board := mkBoard [(⟨13, 3⟩, ⟨.red, .king⟩)] .red noRights

/-- The three moves `GetPseudoLegalMoves2` generates for it. -/
def c9Moves : List Move :=
  [{ fromLoc := ⟨13, 3⟩, toLoc := ⟨12, 4⟩,
     initialRights := some ⟨false, false⟩, newRights := some ⟨false, false⟩ },
   { fromLoc := ⟨13, 3⟩, toLoc := ⟨12, 3⟩ },
   { fromLoc := ⟨13, 3⟩, toLoc := ⟨13, 4⟩ }]

/-- The second generated move, used as killer 1. -/
def c9Killer : Move := { fromLoc := ⟨13, 3⟩, toLoc := ⟨12, 3⟩ }

/-- C9 counterexample: over a generated move list, a killer move that
appears in the list (not at its head) is served twice — once in the
killer phase and once again in the remaining phase — so the picker does
*not* serve each move of the list at most once. -/
theorem c9_counterexample :
    getPseudoLegalMoves2 kingCornerBoard 300 none = some ⟨c9Moves, none⟩ ∧
    c9Killer ∈ c9Moves ∧
    (pickAll (initMovePicker2 c9Moves none (some c9Killer) none)).count
      c9Killer = 2 := by
  refine ⟨by decide, by decide, by decide⟩

end FourPC

namespace FourPC

/-! ## Hash recomputation (the invariant behind C2/C10):
`InitializeHash` (board.cc:1538-1545) XORs one key per placed piece
plus the turn key; recomputation from scratch folds over the grid. -/

/-- Key of a constructor placement. -/
def keyOfLP (lp : Loc × PieceData) : Nat :=
  pieceKey lp.2.color lp.2.type lp.1.row lp.1.col

/-- Key of a piece-list entry. -/
def keyOfPP (pp : PlacedPiece) : Nat :=
  pieceKey pp.piece.color pp.piece.type pp.loc.row pp.loc.col

/-- XOR of a list of keys. -/
def xorFold (l : List Nat) : Nat := l.foldr (· ^^^ ·) 0

/-- Key contributed by grid cell `i`. -/
def cellKeyAt (g : Grid) (i : Nat) : Nat :=
  cellKey (g.getD i none) ((i / 14 : Nat) : Int) ((i % 14 : Nat) : Int)

/-- XOR of `F` over `0..n-1`. -/
def xorRangeF (F : Nat → Nat) (n : Nat) : Nat :=
  (List.range n).foldr (fun j acc => F j ^^^ acc) 0

/-- The from-scratch hash of a grid: XOR of the key of every placed
piece over all 196 cells. -/
def gridHash (g : Grid) : Nat := xorRangeF (cellKeyAt g) 196

/-- The from-scratch hash of a board: grid plus side to move, exactly
what `InitializeHash` computes at construction. -/
def hashFromScratch (b : Board) : Nat :=
  gridHash b.grid ^^^ turnKey b.turn.toNat

/-- The hash invariant of claim C2 (plus the grid-shape fact the grid
lemmas need): the incrementally maintained hash equals the from-scratch
recomputation over the current grid and turn. -/
def HashInv (b : Board) : Prop :=
  b.grid.length = 196 ∧ b.hash = hashFromScratch b

theorem xor_left_comm (a b c : Nat) : a ^^^ (b ^^^ c) = b ^^^ (a ^^^ c) := by
  rw [← Nat.xor_assoc, Nat.xor_comm a b, Nat.xor_assoc]

theorem xor_cancel_left (a b : Nat) : a ^^^ (a ^^^ b) = b := by
  rw [← Nat.xor_assoc, Nat.xor_self, Nat.zero_xor]

theorem xorFold_cons (x : Nat) (l : List Nat) :
    xorFold (x :: l) = x ^^^ xorFold l := rfl

theorem xorFold_append (l1 l2 : List Nat) :
    xorFold (l1 ++ l2) = xorFold l1 ^^^ xorFold l2 := by
  induction l1 with
  | nil => simp [xorFold]
  | cons x l ih =>
    simp only [List.cons_append, xorFold_cons, ih, Nat.xor_assoc]

theorem xorFold_perm {l1 l2 : List Nat} (h : List.Perm l1 l2) :
    xorFold l1 = xorFold l2 := by
  induction h with
  | nil => rfl
  | cons x _ ih => rw [xorFold_cons, xorFold_cons, ih]
  | swap x y l =>
    rw [xorFold_cons, xorFold_cons, xorFold_cons, xorFold_cons,
      xor_left_comm]
  | trans _ _ ih1 ih2 => exact ih1.trans ih2

theorem foldr_xor_init (F : Nat → Nat) (l : List Nat) (x : Nat) :
    l.foldr (fun j acc => F j ^^^ acc) x =
      (l.foldr (fun j acc => F j ^^^ acc) 0) ^^^ x := by
  induction l with
  | nil => simp
  | cons y l ih => simp only [List.foldr_cons, ih, Nat.xor_assoc]

theorem xorRangeF_succ (F : Nat → Nat) (n : Nat) :
    xorRangeF F (n + 1) = xorRangeF F n ^^^ F n := by
  have h := List.range_succ (n := n)
  rw [Nat.succ_eq_add_one] at h
  rw [xorRangeF, h, List.foldr_append]
  simp only [List.foldr_cons, List.foldr_nil, Nat.xor_zero]
  rw [foldr_xor_init]
  rfl

theorem xorRangeF_congr (F G : Nat → Nat) (n : Nat)
    (h : ∀ j, j < n → F j = G j) : xorRangeF F n = xorRangeF G n := by
  induction n with
  | zero => rfl
  | succ n ih =>
    rw [xorRangeF_succ, xorRangeF_succ, ih (fun j hj => h j (by omega)),
      h n (by omega)]

theorem xorRangeF_update (F G : Nat → Nat) (n i : Nat) (hi : i < n)
    (hagree : ∀ j, j < n → j ≠ i → F j = G j) :
    xorRangeF F n = xorRangeF G n ^^^ G i ^^^ F i := by
  induction n with
  | zero => omega
  | succ n ih =>
    rw [xorRangeF_succ, xorRangeF_succ]
    by_cases hin : i = n
    · subst hin
      rw [xorRangeF_congr F G i
        (fun j hj => hagree j (by omega) (by omega))]
      rw [Nat.xor_assoc (xorRangeF G i) (G i) (G i), Nat.xor_self,
        Nat.xor_zero]
    · rw [ih (by omega) (fun j hj hne => hagree j (by omega) hne),
        hagree n (by omega) (fun hh => hin hh.symm)]
      rw [Nat.xor_assoc, Nat.xor_assoc, Nat.xor_assoc, Nat.xor_assoc]
      congr 1
      rw [Nat.xor_comm (F i) (G n), xor_left_comm]

end FourPC

namespace FourPC

/-! ## Grid lemmas -/

theorem inBounds_of_legal (r c : Int) (h : isLegalRC r c = true) :
    inBoundsRC r c = true := by
  simp only [isLegalRC, Bool.and_eq_true, decide_eq_true_eq] at h
  simp only [inBoundsRC, Bool.and_eq_true, decide_eq_true_eq]
  exact ⟨⟨⟨h.1.1.1.1, h.1.1.1.2⟩, h.1.1.2⟩, h.1.2⟩

theorem gridIdx_lt (r c : Int) (h : inBoundsRC r c = true) :
    gridIdx r c < 196 := by
  simp only [inBoundsRC, Bool.and_eq_true, decide_eq_true_eq] at h
  unfold gridIdx
  omega

theorem gridIdx_inj (r c r' c' : Int) (h : inBoundsRC r c = true)
    (h' : inBoundsRC r' c' = true) (heq : gridIdx r c = gridIdx r' c') :
    r = r' ∧ c = c' := by
  simp only [inBoundsRC, Bool.and_eq_true, decide_eq_true_eq] at h h'
  unfold gridIdx at heq
  omega

theorem gridIdx_div_mod (r c : Int) (h : inBoundsRC r c = true) :
    gridIdx r c / 14 = r.toNat ∧ gridIdx r c % 14 = c.toNat := by
  simp only [inBoundsRC, Bool.and_eq_true, decide_eq_true_eq] at h
  unfold gridIdx
  constructor <;> omega

theorem cellKey_coords (x : Piece) (r c r' c' : Int)
    (hr : r.toNat = r'.toNat) (hc : c.toNat = c'.toNat) :
    cellKey x r c = cellKey x r' c' := by
  cases x <;> simp [cellKey, pieceKey, hr, hc]

theorem gridGet_eq_getD (g : Grid) (r c : Int) (h : inBoundsRC r c = true) :
    gridGet g r c = g.getD (gridIdx r c) none := by
  simp [gridGet, h]

theorem gridSet_eq (g : Grid) (r c : Int) (p : Piece)
    (h : inBoundsRC r c = true) :
    gridSet g r c p = g.set (gridIdx r c) p := by
  simp [gridSet, h]

theorem gridSet_length (g : Grid) (r c : Int) (p : Piece) :
    (gridSet g r c p).length = g.length := by
  unfold gridSet
  split <;> simp

theorem getD_set_self (l : Grid) (i : Nat) (x : Piece) (h : i < l.length) :
    (l.set i x).getD i none = x := by
  rw [List.getD_eq_getElem?_getD, List.getElem?_set_self]
  · simp
  · exact h

theorem getD_set_ne (l : Grid) (i j : Nat) (x : Piece) (h : i ≠ j) :
    (l.set i x).getD j none = l.getD j none := by
  rw [List.getD_eq_getElem?_getD, List.getElem?_set_ne h,
    ← List.getD_eq_getElem?_getD]

/-- Writing one in-bounds cell toggles exactly the old and new keys of
that cell in the from-scratch grid hash. -/
theorem gridHash_set (g : Grid) (hlen : g.length = 196) (r c : Int)
    (hin : inBoundsRC r c = true) (p : Piece) :
    gridHash (gridSet g r c p) =
      gridHash g ^^^ cellKey (gridGet g r c) r c ^^^ cellKey p r c := by
  have hidx := gridIdx_lt r c hin
  have hdm := gridIdx_div_mod r c hin
  have hcoords : ∀ x : Piece,
      cellKey x ((gridIdx r c / 14 : Nat) : Int)
        ((gridIdx r c % 14 : Nat) : Int) = cellKey x r c := by
    intro x
    apply cellKey_coords
    · rw [Int.toNat_natCast, hdm.1]
    · rw [Int.toNat_natCast, hdm.2]
  have hagree : ∀ j, j < 196 → j ≠ gridIdx r c →
      cellKeyAt (gridSet g r c p) j = cellKeyAt g j := by
    intro j hj hne
    rw [cellKeyAt, cellKeyAt, gridSet_eq g r c p hin, getD_set_ne _ _ _ _
      (fun hh => hne hh.symm)]
  rw [gridHash, gridHash,
    xorRangeF_update (cellKeyAt (gridSet g r c p)) (cellKeyAt g) 196
      (gridIdx r c) hidx hagree]
  rw [cellKeyAt, cellKeyAt, gridSet_eq g r c p hin,
    getD_set_self _ _ _ (by omega), hcoords, hcoords,
    gridGet_eq_getD g r c hin]

end FourPC

namespace FourPC

theorem gridSetL_length (g : Grid) (l : Loc) (p : Piece) :
    (gridSetL g l p).length = g.length := gridSet_length g l.row l.col p

theorem loc_eq_of_coords {l l' : Loc} (h1 : l.row = l'.row)
    (h2 : l.col = l'.col) : l = l' := by
  cases l; cases l'; simp_all

theorem gridGetL_set_self (g : Grid) (l : Loc) (p : Piece)
    (hlen : g.length = 196) (hin : inBoundsRC l.row l.col = true) :
    gridGetL (gridSetL g l p) l = p := by
  rw [gridGetL, gridSetL, gridSet_eq _ _ _ _ hin, gridGet_eq_getD _ _ _ hin,
    getD_set_self]
  rw [hlen]
  exact gridIdx_lt _ _ hin

theorem gridGetL_set_ne (g : Grid) (l l' : Loc) (p : Piece)
    (hin : inBoundsRC l.row l.col = true) (hne : l' ≠ l) :
    gridGetL (gridSetL g l p) l' = gridGetL g l' := by
  by_cases hin' : inBoundsRC l'.row l'.col = true
  · rw [gridGetL, gridGetL, gridGet_eq_getD _ _ _ hin',
      gridGet_eq_getD _ _ _ hin', gridSetL, gridSet_eq _ _ _ _ hin,
      getD_set_ne]
    intro hidx
    obtain ⟨h1, h2⟩ := gridIdx_inj _ _ _ _ hin hin' hidx
    exact hne (loc_eq_of_coords h1.symm h2.symm)
  · simp [gridGetL, gridGet, hin']

theorem gridHash_setL (g : Grid) (l : Loc) (p : Piece)
    (hlen : g.length = 196) (hin : inBoundsRC l.row l.col = true) :
    gridHash (gridSetL g l p) =
      gridHash g ^^^ cellKey (gridGetL g l) l.row l.col ^^^
        cellKey p l.row l.col :=
  gridHash_set g hlen l.row l.col hin p

theorem nextPlayer_toNat (c : PlayerColor) :
    (nextPlayer c).toNat = (c.toNat + 1) % 4 := by
  cases c <;> rfl

theorem nextPlayer_prevPlayer (c : PlayerColor) :
    nextPlayer (prevPlayer c) = c := by
  cases c <;> rfl

theorem turnKey_mod (t : Nat) : turnKey ((t + 1) % 4) = turnKey (t + 1) := by
  unfold turnKey
  congr 1
  omega

end FourPC

namespace FourPC

/-- Helper: `MakeMove` of a move whose moving piece belongs to the side
to move preserves the hash invariant. -/
theorem makeMove_hashInv (b b' : Board) (m : Move) (p : PieceData)
    (hp : gridGetL b.grid m.fromLoc = some p) (hturn : p.color = b.turn)
    (hne : m.toLoc ≠ m.fromLoc)
    (hbf : inBoundsRC m.fromLoc.row m.fromLoc.col = true)
    (hbt : inBoundsRC m.toLoc.row m.toLoc.col = true)
    (hmk : makeMove b m = some b') (hinv : HashInv b) : HashInv b' := by
  obtain ⟨hlen, hhash⟩ := hinv
  rcases hcap : gridGetL b.grid m.toLoc with _ | cap
  · rcases h2 : eraseAt (b.pieceList.get p.color) m.fromLoc with _ | l2
    · simp [makeMove, hp, hcap, h2] at hmk
    · simp [makeMove, hp, hcap, h2] at hmk
      subst hmk
      simp only [HashInv, hashFromScratch]
      constructor
      · rw [gridSetL_length, gridSetL_length]
        exact hlen
      ·
        rw [gridHash_setL _ _ _ (by rw [gridSetL_length]; exact hlen) hbt,
          gridGetL_set_ne b.grid m.fromLoc m.toLoc none hbf hne, hcap,
          gridHash_setL _ _ _ hlen hbf, hp]
        simp only [updatePieceHash, updateTurnHash, cellKey, hhash,
          hashFromScratch, nextPlayer_toNat, turnKey_mod, hturn]
        simp [Nat.xor_assoc, Nat.xor_comm, xor_left_comm, Nat.xor_self,
          Nat.xor_zero, Nat.zero_xor, xor_cancel_left]
  · rcases h1 : eraseAt (b.pieceList.get cap.color) m.toLoc with _ | l1
    · simp [makeMove, hp, hcap, h1] at hmk
    · rcases h2 : eraseAt
          ((b.pieceList.set cap.color l1).get p.color) m.fromLoc with _ | l2
      · simp [makeMove, hp, hcap, h1, h2] at hmk
      · simp [makeMove, hp, hcap, h1, h2] at hmk
        subst hmk
        simp only [HashInv, hashFromScratch]
        constructor
        · rw [gridSetL_length, gridSetL_length, gridSetL_length]
          exact hlen
        ·
          rw [gridHash_setL _ _ _
              (by rw [gridSetL_length, gridSetL_length]; exact hlen) hbt,
            gridGetL_set_ne _ m.fromLoc m.toLoc none hbf hne,
            gridGetL_set_self b.grid m.toLoc none hlen hbt,
            gridHash_setL _ _ _ (by rw [gridSetL_length]; exact hlen) hbf,
            gridGetL_set_ne b.grid m.toLoc m.fromLoc none hbt
              (fun hh => hne hh.symm), hp,
            gridHash_setL _ _ _ hlen hbt, hcap]
          simp only [updatePieceHash, updateTurnHash, cellKey, hhash,
            hashFromScratch, nextPlayer_toNat, turnKey_mod, hturn]
          simp [Nat.xor_assoc, Nat.xor_comm, xor_left_comm, Nat.xor_self,
            Nat.xor_zero, Nat.zero_xor, xor_cancel_left]

end FourPC

namespace FourPC

theorem turnKey_next_prev (c : PlayerColor) :
    turnKey ((prevPlayer c).toNat + 1) = turnKey c.toNat := by
  cases c <;> rfl

/-- Helper: `UndoMove` preserves the hash invariant when the recorded
last move is well-formed for the current position (its destination
holds a piece, its origin is empty). -/
theorem undoMove_hashInv (b b' : Board) (m : Move) (rest : List Move)
    (p : PieceData) (hh : b.history = m :: rest)
    (hp : gridGetL b.grid m.toLoc = some p)
    (hfrom : gridGetL b.grid m.fromLoc = none)
    (hne : m.toLoc ≠ m.fromLoc)
    (hbf : inBoundsRC m.fromLoc.row m.fromLoc.col = true)
    (hbt : inBoundsRC m.toLoc.row m.toLoc.col = true)
    (hmk : undoMove b = some b') (hinv : HashInv b) : HashInv b' := by
  obtain ⟨hlen, hhash⟩ := hinv
  rcases hcap : m.capture with _ | cap
  · simp [undoMove, hh, hp, hcap] at hmk
    subst hmk
    simp only [HashInv, hashFromScratch]
    constructor
    · rw [gridSetL_length, gridSetL_length]
      exact hlen
    · rw [gridHash_setL _ _ _ (by rw [gridSetL_length]; exact hlen) hbf,
        gridGetL_set_ne b.grid m.toLoc m.fromLoc none hbt
          (fun hh2 => hne hh2.symm), hfrom,
        gridHash_setL _ _ _ hlen hbt, hp]
      simp only [updatePieceHash, updateTurnHash, cellKey, hhash,
        hashFromScratch, turnKey_mod, turnKey_next_prev]
      simp [Nat.xor_assoc, Nat.xor_comm, xor_left_comm, Nat.xor_self,
        Nat.xor_zero, Nat.zero_xor, xor_cancel_left]
  · simp [undoMove, hh, hp, hcap] at hmk
    subst hmk
    simp only [HashInv, hashFromScratch]
    constructor
    · rw [gridSetL_length, gridSetL_length, gridSetL_length]
      exact hlen
    · rw [gridHash_setL _ _ _
          (by rw [gridSetL_length, gridSetL_length]; exact hlen) hbt,
        gridGetL_set_ne _ m.fromLoc m.toLoc (some p) hbf hne,
        gridGetL_set_self b.grid m.toLoc none hlen hbt,
        gridHash_setL _ _ _ (by rw [gridSetL_length]; exact hlen) hbf,
        gridGetL_set_ne b.grid m.toLoc m.fromLoc none hbt
          (fun hh2 => hne hh2.symm), hfrom,
        gridHash_setL _ _ _ hlen hbt, hp]
      simp only [updatePieceHash, updateTurnHash, cellKey, hhash,
        hashFromScratch, turnKey_mod, turnKey_next_prev]
      simp [Nat.xor_assoc, Nat.xor_comm, xor_left_comm, Nat.xor_self,
        Nat.xor_zero, Nat.zero_xor, xor_cancel_left]

/-- Helper: `MakeNullMove` preserves the hash invariant. -/
theorem makeNullMove_hashInv (b : Board) (hinv : HashInv b) :
    HashInv (makeNullMove b) := by
  obtain ⟨hlen, hhash⟩ := hinv
  refine ⟨hlen, ?_⟩
  simp only [makeNullMove, hashFromScratch, updateTurnHash, hhash,
    nextPlayer_toNat, turnKey_mod]
  simp [Nat.xor_assoc, Nat.xor_comm, xor_left_comm, Nat.xor_self,
    Nat.xor_zero, Nat.zero_xor, xor_cancel_left]

/-- Helper: `UndoNullMove` preserves the hash invariant. -/
theorem undoNullMove_hashInv (b : Board) (hinv : HashInv b) :
    HashInv (undoNullMove b) := by
  obtain ⟨hlen, hhash⟩ := hinv
  refine ⟨hlen, ?_⟩
  simp only [undoNullMove, hashFromScratch, updateTurnHash, hhash,
    hashFromScratch, turnKey_mod, turnKey_next_prev]
  simp [Nat.xor_assoc, Nat.xor_comm, xor_left_comm, Nat.xor_self,
    Nat.xor_zero, Nat.zero_xor, xor_cancel_left]

end FourPC

namespace FourPC

/-! ## Constructor lemmas: hash of a freshly built board -/

theorem xorFold_snoc (l : List Nat) (x : Nat) :
    xorFold (l ++ [x]) = xorFold l ^^^ x := by
  rw [xorFold_append]
  simp [xorFold]

/-- XOR of the keys of all four piece lists. -/
def totalKey (b : Board) : Nat :=
  xorFold ((b.pieceList.get .red).map keyOfPP) ^^^
  xorFold ((b.pieceList.get .blue).map keyOfPP) ^^^
  xorFold ((b.pieceList.get .yellow).map keyOfPP) ^^^
  xorFold ((b.pieceList.get .green).map keyOfPP)

theorem placeOne_totalKey (b : Board) (x : Loc × PieceData) :
    totalKey (placeOne b x) = totalKey b ^^^ keyOfLP x := by
  rcases x with ⟨l, p⟩
  have hkey : keyOfPP ⟨l, p⟩ = keyOfLP (l, p) := rfl
  cases hc : p.color <;>
    · simp only [totalKey, placeOne, hc, PerColor.get, PerColor.set]
      simp only [List.map_append, List.map_cons, List.map_nil, xorFold_snoc,
        hkey]
      simp [Nat.xor_assoc, Nat.xor_comm, xor_left_comm]

theorem foldl_placeOne_totalKey (pl : List (Loc × PieceData)) :
    ∀ b : Board, totalKey (pl.foldl placeOne b) =
      totalKey b ^^^ xorFold (pl.map keyOfLP) := by
  induction pl with
  | nil => intro b; simp [xorFold]
  | cons x rest ih =>
    intro b
    simp only [List.foldl_cons, List.map_cons, xorFold_cons, ih,
      placeOne_totalKey, Nat.xor_assoc]

theorem foldl_updateHash (l : List PlacedPiece) :
    ∀ h : Nat, l.foldl (fun h pp => updatePieceHash h pp.piece pp.loc) h =
      h ^^^ xorFold (l.map keyOfPP) := by
  induction l with
  | nil => intro h; simp [xorFold]
  | cons pp rest ih =>
    intro h
    rw [List.foldl_cons, ih, List.map_cons, xorFold_cons]
    simp only [updatePieceHash, keyOfPP]
    rw [Nat.xor_assoc]

theorem initHash_hash (b : Board) :
    (initHash b).hash = totalKey b ^^^ turnKey b.turn.toNat := by
  simp only [initHash, updateTurnHash, foldl_updateHash, totalKey]
  simp [Nat.xor_assoc, Nat.zero_xor]

theorem foldP_grid (pl : List (Loc × PieceData)) :
    ∀ b : Board, (pl.foldl placeOne b).grid =
      pl.foldl (fun g lp => gridSetL g lp.1 (some lp.2)) b.grid := by
  induction pl with
  | nil => intro b; rfl
  | cons x rest ih => intro b; simp only [List.foldl_cons, ih, placeOne]

theorem foldP_turn (pl : List (Loc × PieceData)) :
    ∀ b : Board, (pl.foldl placeOne b).turn = b.turn := by
  induction pl with
  | nil => intro b; rfl
  | cons x rest ih => intro b; simp only [List.foldl_cons, ih, placeOne]

/-- The hash a constructed board carries: one key per placement plus
the turn key, independent of iteration order up to XOR. -/
theorem mkBoard_hash (pl : List (Loc × PieceData)) (t : PlayerColor)
    (cr : PerColor CastlingRights) :
    (mkBoard pl t cr).hash = xorFold (pl.map keyOfLP) ^^^ turnKey t.toNat := by
  have hsort : ∀ l : List PlacedPiece,
      xorFold ((l.insertionSort (fun a b =>
        moveOrderScore a.piece.type ≤ moveOrderScore b.piece.type)).map
          keyOfPP) = xorFold (l.map keyOfPP) := by
    intro l
    exact xorFold_perm ((List.perm_insertionSort _ l).map keyOfPP)
  simp only [mkBoard, initHash_hash]
  have htk : ∀ b2 b1 : Board, b2.pieceList =
      ⟨(b1.pieceList.get .red).insertionSort (fun a b =>
          moveOrderScore a.piece.type ≤ moveOrderScore b.piece.type),
        (b1.pieceList.get .blue).insertionSort (fun a b =>
          moveOrderScore a.piece.type ≤ moveOrderScore b.piece.type),
        (b1.pieceList.get .yellow).insertionSort (fun a b =>
          moveOrderScore a.piece.type ≤ moveOrderScore b.piece.type),
        (b1.pieceList.get .green).insertionSort (fun a b =>
          moveOrderScore a.piece.type ≤ moveOrderScore b.piece.type)⟩ →
      totalKey b2 = totalKey b1 := by
    intro b2 b1 hpl
    simp only [totalKey, hpl, PerColor.get, hsort]
  rw [htk _ _ rfl]
  rw [foldl_placeOne_totalKey]
  have h0 : totalKey {
      grid := List.replicate 196 none
      pieceList := PerColor.mkSame []
      kingLoc := PerColor.mkSame none
      castling := cr
      turn := t
      hash := 0
      pieceEval := 0
      playerEval := PerColor.mkSame 0
      history := [] } = 0 := by
    simp [totalKey, PerColor.mkSame, PerColor.get, xorFold]
  rw [h0, Nat.zero_xor, foldP_turn]

end FourPC

namespace FourPC

/-- C10: every `Board` constructor re-seeds the generator with the
fixed seed before filling the turn and piece key tables, so the key
tables are one fixed global table; two boards constructed from the same
square-to-piece mapping (in any iteration order of the input map) and
the same turn therefore carry equal hash keys, whatever castling rights
they were given. -/
theorem c10_hash_deterministic (pl1 pl2 : List (Loc × PieceData))
    (t : PlayerColor) (cr1 cr2 : PerColor CastlingRights)
    (h : List.Perm pl1 pl2) :
    (mkBoard pl1 t cr1).hash = (mkBoard pl2 t cr2).hash := by
  rw [mkBoard_hash, mkBoard_hash, xorFold_perm (h.map keyOfLP)]

/-- One placement order of a two-piece position. -/
def c10PlacementsA : List (Loc × PieceData) :=
  [(⟨7, 7⟩, ⟨.red, .pawn⟩), (⟨8, 8⟩, ⟨.blue, .rook⟩)]

/-- The other placement order of the same mapping. -/
def c10PlacementsB : List (Loc × PieceData) :=
  [(⟨8, 8⟩, ⟨.blue, .rook⟩), (⟨7, 7⟩, ⟨.red, .pawn⟩)]

/-- Witness for C10 at concrete boards. -/
theorem c10_witness :
    List.Perm c10PlacementsA c10PlacementsB ∧
    (mkBoard c10PlacementsA .red noRights).hash =
      (mkBoard c10PlacementsB .red (PerColor.mkSame ⟨true, true⟩)).hash :=
  ⟨by decide, c10_hash_deterministic _ _ _ _ _ (by decide)⟩

end FourPC

namespace FourPC

theorem xorRangeF_zero (F : Nat → Nat) (n : Nat)
    (h : ∀ j, j < n → F j = 0) : xorRangeF F n = 0 := by
  induction n with
  | zero => rfl
  | succ n ih =>
    rw [xorRangeF_succ, ih (fun j hj => h j (by omega)), h n (by omega)]
    rfl

theorem getD_replicate_none (j : Nat) :
    (List.replicate 196 (none : Piece)).getD j none = none := by
  rw [List.getD_eq_getElem?_getD, List.getElem?_replicate]
  split <;> rfl

theorem gridHash_empty : gridHash (List.replicate 196 none) = 0 := by
  apply xorRangeF_zero
  intro j hj
  show cellKeyAt (List.replicate 196 none) j = 0
  unfold cellKeyAt
  rw [getD_replicate_none]
  rfl

theorem gridGetL_replicate (l : Loc) :
    gridGetL (List.replicate 196 none) l = none := by
  unfold gridGetL gridGet
  split
  · rw [List.getD_eq_getElem?_getD, List.getElem?_replicate]
    split <;> rfl
  · rfl

theorem foldG_length (pl : List (Loc × PieceData)) :
    ∀ g : Grid,
      (pl.foldl (fun g lp => gridSetL g lp.1 (some lp.2)) g).length =
        g.length := by
  induction pl with
  | nil => intro g; rfl
  | cons x rest ih => intro g; rw [List.foldl_cons, ih, gridSetL_length]

/-- Building the grid from distinct in-bounds placements on empty cells
XORs in exactly one key per placement. -/
theorem buildGrid_hash (pl : List (Loc × PieceData)) :
    ∀ g : Grid, g.length = 196 →
    (∀ lp ∈ pl, inBoundsRC lp.1.row lp.1.col = true ∧
      gridGetL g lp.1 = none) →
    (pl.map Prod.fst).Nodup →
    gridHash (pl.foldl (fun g lp => gridSetL g lp.1 (some lp.2)) g) =
      gridHash g ^^^ xorFold (pl.map keyOfLP) := by
  induction pl with
  | nil => intro g _ _ _; simp [xorFold]
  | cons x rest ih =>
    intro g hlen hcond hnd
    obtain ⟨hin, hnone⟩ := hcond x (List.mem_cons_self x rest)
    simp only [List.map_cons, List.nodup_cons] at hnd
    rw [List.foldl_cons]
    rw [ih (gridSetL g x.1 (some x.2)) (by rw [gridSetL_length]; exact hlen)
      ?cond (by exact hnd.2)]
    case cond =>
      intro lp hlp
      obtain ⟨hin', hnone'⟩ := hcond lp (List.mem_cons_of_mem x hlp)
      refine ⟨hin', ?_⟩
      rw [gridGetL_set_ne g x.1 lp.1 (some x.2) hin ?ne]
      · exact hnone'
      · intro hh
        exact hnd.1 (hh ▸ List.mem_map_of_mem Prod.fst hlp)
    rw [gridHash_setL g x.1 (some x.2) hlen hin, hnone]
    have hck : cellKey (some x.2) x.1.row x.1.col = keyOfLP x := rfl
    rw [hck, List.map_cons, xorFold_cons]
    simp [cellKey, Nat.xor_assoc]

theorem mkBoard_grid (pl : List (Loc × PieceData)) (t : PlayerColor)
    (cr : PerColor CastlingRights) :
    (mkBoard pl t cr).grid =
      pl.foldl (fun g lp => gridSetL g lp.1 (some lp.2))
        (List.replicate 196 none) := by
  simp only [mkBoard, initHash, foldP_grid]

theorem mkBoard_turn (pl : List (Loc × PieceData)) (t : PlayerColor)
    (cr : PerColor CastlingRights) : (mkBoard pl t cr).turn = t := by
  simp only [mkBoard, initHash, foldP_turn]

/-- A freshly constructed board satisfies the hash invariant. -/
theorem mkBoard_hashInv (pl : List (Loc × PieceData)) (t : PlayerColor)
    (cr : PerColor CastlingRights)
    (hin : ∀ lp ∈ pl, inBoundsRC lp.1.row lp.1.col = true)
    (hnd : (pl.map Prod.fst).Nodup) : HashInv (mkBoard pl t cr) := by
  constructor
  · rw [mkBoard_grid, foldG_length]
    simp
  · rw [mkBoard_hash, hashFromScratch, mkBoard_grid, mkBoard_turn,
      buildGrid_hash pl (List.replicate 196 none) (by simp)
        (fun lp hlp => ⟨hin lp hlp, gridGetL_replicate lp.1⟩) hnd,
      gridHash_empty, Nat.zero_xor]

end FourPC

namespace FourPC

/-- A board-mutating operation from the quartet `MakeMove` / `UndoMove` /
`MakeNullMove` / `UndoNullMove` (board.cc:1547-1757, 2223-2237). -/
inductive Op where
  | make (m : Move)
  | undo
  | nullM
  | nullU
deriving DecidableEq

/-- Preconditions under which the hash-update reasoning applies: the moved
piece belongs to the side to move, source and destination are distinct
on-board squares, and an undo has a matching history entry. -/
def opOk (b : Board) : Op → Bool
  | .make m =>
      (Option.map (fun p => p.color) (gridGetL b.grid m.fromLoc) ==
        some b.turn) &&
      decide (m.toLoc ≠ m.fromLoc) &&
      inBoundsRC m.fromLoc.row m.fromLoc.col &&
      inBoundsRC m.toLoc.row m.toLoc.col
  | .undo =>
      match b.history with
      | [] => false
      | m :: _ =>
          (gridGetL b.grid m.toLoc).isSome &&
          (gridGetL b.grid m.fromLoc).isNone &&
          decide (m.toLoc ≠ m.fromLoc) &&
          inBoundsRC m.fromLoc.row m.fromLoc.col &&
          inBoundsRC m.toLoc.row m.toLoc.col
  | .nullM => true
  | .nullU => true

def applyOp (b : Board) : Op → Option Board
  | .make m => makeMove b m
  | .undo => undoMove b
  | .nullM => some (makeNullMove b)
  | .nullU => some (undoNullMove b)

/-- Run a sequence of operations, checking each precondition. -/
def runOps (b : Board) : List Op → Option Board
  | [] => some b
  | op :: ops =>
      if opOk b op then (applyOp b op).bind (fun b1 => runOps b1 ops)
      else none

/-- Every precondition-respecting operation preserves the hash invariant,
hence so does any sequence of them. -/
theorem runOps_hashInv (ops : List Op) :
    ∀ b b2 : Board, runOps b ops = some b2 → HashInv b → HashInv b2 := by
  induction ops with
  | nil =>
    intro b b2 h hinv
    simp only [runOps, Option.some.injEq] at h
    exact h ▸ hinv
  | cons op rest ih =>
    intro b b2 h hinv
    simp only [runOps] at h
    split at h
    case isFalse => exact absurd h (by simp)
    case isTrue hok =>
    rcases happ : applyOp b op with _ | b1
    · rw [happ] at h; exact absurd h (by simp)
    rw [happ] at h
    simp only [Option.some_bind] at h
    refine ih b1 b2 h ?_
    cases op with
    | make m =>
      simp only [opOk, Bool.and_eq_true, beq_iff_eq, decide_eq_true_eq]
        at hok
      obtain ⟨⟨⟨hmap, hne⟩, hbf⟩, hbt⟩ := hok
      rw [Option.map_eq_some'] at hmap
      obtain ⟨p, hp, hcol⟩ := hmap
      simp only [applyOp] at happ
      exact makeMove_hashInv b b1 m p hp hcol hne hbf hbt happ hinv
    | undo =>
      rcases hh : b.history with _ | ⟨m, rest2⟩
      · simp [opOk, hh] at hok
      simp only [opOk, hh, Bool.and_eq_true, decide_eq_true_eq] at hok
      obtain ⟨⟨⟨⟨hsome, hnone⟩, hne⟩, hbf⟩, hbt⟩ := hok
      rcases hpt : gridGetL b.grid m.toLoc with _ | p
      · rw [hpt] at hsome; exact absurd hsome (by simp)
      rw [Option.isNone_iff_eq_none] at hnone
      simp only [applyOp] at happ
      exact undoMove_hashInv b b1 m rest2 p hh hpt hnone hne hbf hbt
        happ hinv
    | nullM =>
      simp only [applyOp, Option.some.injEq] at happ
      exact happ ▸ makeNullMove_hashInv b hinv
    | nullU =>
      simp only [applyOp, Option.some.injEq] at happ
      exact happ ▸ undoNullMove_hashInv b hinv

end FourPC

namespace FourPC

/-- C2: after every precondition-respecting sequence of MakeMove / UndoMove /
MakeNullMove / UndoNullMove operations starting from a constructed board,
the incrementally maintained hash equals the hash recomputed from scratch
over the current grid and turn (XOR of the piece key of every placed piece
plus the turn key of the side to move, as InitializeHash computes it). -/
theorem c2_incremental_hash_matches_scratch
    (pl : List (Loc × PieceData)) (t : PlayerColor)
    (cr : PerColor CastlingRights) (ops : List Op) (b2 : Board)
    (hin : ∀ lp ∈ pl, inBoundsRC lp.1.row lp.1.col = true)
    (hnd : (pl.map Prod.fst).Nodup)
    (hrun : runOps (mkBoard pl t cr) ops = some b2) :
    b2.hash = hashFromScratch b2 :=
  (runOps_hashInv ops (mkBoard pl t cr) b2 hrun
    (mkBoard_hashInv pl t cr hin hnd)).2

def c2Placements : List (Loc × PieceData) := [(⟨7, 7⟩, ⟨.red, .pawn⟩)]

def c2Ops : List Op :=
  [.make { fromLoc := ⟨7, 7⟩, toLoc := ⟨6, 7⟩ }, .undo, .nullM, .nullU]

def c2Start : Board := mkBoard c2Placements .red noRights

def c2Final : Board := (runOps c2Start c2Ops).getD c2Start

theorem c2_witness :
    runOps c2Start c2Ops = some c2Final ∧
    c2Final.hash = hashFromScratch c2Final :=
  ⟨by decide,
   c2_incremental_hash_matches_scratch c2Placements .red noRights c2Ops
     c2Final (by decide) (by decide) (by decide)⟩

end FourPC

namespace FourPC

theorem prevPlayer_nextPlayer (c : PlayerColor) :
    prevPlayer (nextPlayer c) = c := by
  cases c <;> rfl

theorem PerColor.set_set (v : PerColor α) (c : PlayerColor) (x y : α) :
    (v.set c x).set c y = v.set c y := by
  cases v; cases c <;> rfl

theorem PerColor.set_get_self (v : PerColor α) (c : PlayerColor) :
    v.set c (v.get c) = v := by
  cases v; cases c <;> rfl

theorem PerColor.set_comm (v : PerColor α) (c c' : PlayerColor) (x y : α)
    (h : c ≠ c') : (v.set c x).set c' y = (v.set c' y).set c x := by
  cases v
  cases c <;> cases c' <;> first
    | exact absurd rfl h
    | rfl

/-- Decomposition of a successful `eraseAt`: the input splits around the
first entry at the target location. -/
theorem eraseAt_spec (loc : Loc) :
    ∀ l l' : List PlacedPiece, eraseAt l loc = some l' →
    ∃ pre q post, l = pre ++ ⟨loc, q⟩ :: post ∧ l' = pre ++ post ∧
      ∀ e ∈ pre, e.loc ≠ loc := by
  intro l
  induction l with
  | nil => intro l' h; simp [eraseAt] at h
  | cons pp rest ih =>
    intro l' h
    simp only [eraseAt] at h
    split at h
    case isTrue heq =>
      refine ⟨[], pp.piece, rest, ?_, ?_, by simp⟩
      · cases pp
        simp only [List.nil_append]
        cases heq
        rfl
      · simpa using h.symm
    case isFalse hne =>
      rcases hrec : eraseAt rest loc with _ | r
      · rw [hrec] at h; simp at h
      rw [hrec] at h
      have h4 : pp :: r = l' := by
        rcases l' with _ | ⟨x, xs⟩
        · exact absurd h (by simp)
        · have : Option.map (fun y => pp :: y) (some r) =
              some (x :: xs) := h
          simp only [Option.map] at this
          exact Option.some.inj this
      obtain ⟨pre, q, post, h1, h2, h3⟩ := ih r hrec
      refine ⟨pp :: pre, q, post, by simp [h1], by simp [← h4, h2], ?_⟩
      intro e he
      rcases List.mem_cons.mp he with he | he
      · exact he ▸ hne
      · exact h3 e he

/-- When no entry of `l` sits at `loc`, erasing at `loc` from
`l ++ [entry-at-loc]` removes exactly the appended entry. -/
theorem eraseAt_append_single (loc : Loc) (q : PieceData) :
    ∀ l : List PlacedPiece, (∀ e ∈ l, e.loc ≠ loc) →
    eraseAt (l ++ [⟨loc, q⟩]) loc = some l := by
  intro l
  induction l with
  | nil => intro _; simp [eraseAt]
  | cons pp rest ih =>
    intro h
    have hstep : eraseAt ((pp :: rest) ++ [⟨loc, q⟩]) loc
        = if pp.loc = loc then some (rest ++ [⟨loc, q⟩])
          else (eraseAt (rest ++ [⟨loc, q⟩]) loc).map (pp :: ·) := rfl
    rw [hstep, if_neg (h pp (List.mem_cons_self pp rest)),
      ih (fun e he => h e (List.mem_cons_of_mem pp he))]
    rfl

/-- The piece lists agree with the grid: every entry of a color's list
records a piece of that color that actually stands on its square. -/
def listsCoherentB (b : Board) : Bool :=
  [PlayerColor.red, .blue, .yellow, .green].all fun c =>
    (b.pieceList.get c).all fun e =>
      (gridGetL b.grid e.loc == some e.piece) && (e.piece.color == c)

theorem listsCoherentB_spec (b : Board) (h : listsCoherentB b = true)
    (c : PlayerColor) (e : PlacedPiece) (he : e ∈ b.pieceList.get c) :
    gridGetL b.grid e.loc = some e.piece ∧ e.piece.color = c := by
  simp only [listsCoherentB, List.all_eq_true, Bool.and_eq_true,
    beq_iff_eq] at h
  have hc : c ∈ [PlayerColor.red, .blue, .yellow, .green] := by
    cases c <;> simp
  exact h c hc e he

theorem grid_eq_of_getD (g g' : Grid) (hl : g.length = g'.length)
    (h : ∀ i, i < g.length → g.getD i none = g'.getD i none) : g = g' := by
  apply List.ext_getElem hl
  intro i h1 h2
  have hh := h i h1
  rw [List.getD_eq_getElem?_getD, List.getD_eq_getElem?_getD,
    List.getElem?_eq_getElem h1, List.getElem?_eq_getElem h2] at hh
  simpa using hh

/-- Two 196-cell grids agreeing at every legal coordinate are equal. -/
theorem grid_ext_loc (g g' : Grid) (h196 : g.length = 196)
    (h196' : g'.length = 196)
    (h : ∀ l : Loc, inBoundsRC l.row l.col = true →
      gridGetL g l = gridGetL g' l) : g = g' := by
  apply grid_eq_of_getD g g' (by rw [h196, h196'])
  intro i hi
  rw [h196] at hi
  have hin : inBoundsRC ((i / 14 : Nat) : Int) ((i % 14 : Nat) : Int)
      = true := by
    simp only [inBoundsRC, Bool.and_eq_true, decide_eq_true_eq]
    omega
  have hidx : gridIdx ((i / 14 : Nat) : Int) ((i % 14 : Nat) : Int) = i := by
    unfold gridIdx
    omega
  have hh := h ⟨((i / 14 : Nat) : Int), ((i % 14 : Nat) : Int)⟩ hin
  rw [gridGetL, gridGetL, gridGet_eq_getD _ _ _ hin,
    gridGet_eq_getD _ _ _ hin, hidx] at hh
  exact hh

end FourPC

namespace FourPC

/-- The captured piece, if any, belongs to another player than the mover. -/
def capColorOk (b : Board) (m : Move) (p : PieceData) : Bool :=
  match gridGetL b.grid m.toLoc with
  | none => true
  | some cap => cap.color != p.color

/-- If the captured piece is a king, the captured colors king location
points at the capture square. -/
def capKingOk (b : Board) (m : Move) : Bool :=
  match gridGetL b.grid m.toLoc with
  | none => true
  | some cap => cap.type != .king ||
      (b.kingLoc.get cap.color == some m.toLoc)

theorem capColorOk_spec (b : Board) (m : Move) (p cap : PieceData)
    (hcap : gridGetL b.grid m.toLoc = some cap)
    (h : capColorOk b m p = true) : cap.color ≠ p.color := by
  unfold capColorOk at h
  rw [hcap] at h
  simpa using h

theorem capKingOk_spec (b : Board) (m : Move) (cap : PieceData)
    (hcap : gridGetL b.grid m.toLoc = some cap)
    (hck : cap.type = .king) (h : capKingOk b m = true) :
    b.kingLoc.get cap.color = some m.toLoc := by
  unfold capKingOk at h
  rw [hcap] at h
  simpa [hck] using h

/-- Helper: `MakeMove` followed by `UndoMove` restores the grid, the king
locations, the hash, the evaluations, the turn and the history, and
restores each colors piece list up to permutation; the movers castling
rights, however, end up cleared whenever the moved piece is a king,
because `UndoMove` re-clears them instead of restoring the pre-move
value (board.cc:1713-1716). -/
theorem makeUndo_restore
    (b b' b'' : Board) (m : Move) (p : PieceData)
    (hlen : b.grid.length = 196)
    (hp : gridGetL b.grid m.fromLoc = some p)
    (hturn : p.color = b.turn)
    (hne : m.toLoc ≠ m.fromLoc)
    (hbf : inBoundsRC m.fromLoc.row m.fromLoc.col = true)
    (hbt : inBoundsRC m.toLoc.row m.toLoc.col = true)
    (hcapEq : m.capture = gridGetL b.grid m.toLoc)
    (hcapCol : capColorOk b m p = true)
    (hkingP : p.type = .king → b.kingLoc.get p.color = some m.fromLoc)
    (hkingCap : capKingOk b m = true)
    (hcoh : listsCoherentB b = true)
    (hmk : makeMove b m = some b')
    (hund : undoMove b' = some b'') :
    b''.grid = b.grid ∧
    (∀ c, List.Perm (b''.pieceList.get c) (b.pieceList.get c)) ∧
    b''.kingLoc = b.kingLoc ∧
    b''.hash = b.hash ∧
    b''.pieceEval = b.pieceEval ∧
    b''.playerEval = b.playerEval ∧
    b''.turn = b.turn ∧
    b''.history = b.history ∧
    b''.castling = (if p.type = .king then
        b.castling.set p.color ⟨false, false⟩ else b.castling) := by
  rcases hcap : gridGetL b.grid m.toLoc with _ | cap
  · -- quiet move
    have hcapn : m.capture = none := by rw [hcapEq, hcap]
    rcases h2 : eraseAt (b.pieceList.get p.color) m.fromLoc with _ | l2
    · simp [makeMove, hp, hcap, h2] at hmk
    obtain ⟨pre, q, post, hsplit, hl2, hprefix⟩ :=
      eraseAt_spec m.fromLoc _ _ h2
    have hq : q = p := by
      have hmemq : (⟨m.fromLoc, q⟩ : PlacedPiece) ∈
          b.pieceList.get p.color := by
        rw [hsplit]; simp
      have hco := (listsCoherentB_spec b hcoh p.color _ hmemq).1
      rw [show (⟨m.fromLoc, q⟩ : PlacedPiece).loc = m.fromLoc from rfl,
        hp] at hco
      exact (Option.some.inj hco).symm
    rw [hq] at hsplit
    have hnotto : ∀ e ∈ l2, e.loc ≠ m.toLoc := by
      intro e he heq
      have hmem : e ∈ b.pieceList.get p.color := by
        rw [hsplit]
        rw [hl2] at he
        rcases List.mem_append.mp he with h | h
        · exact List.mem_append_left _ h
        · exact List.mem_append_right _ (List.mem_cons_of_mem _ h)
      have hco := (listsCoherentB_spec b hcoh p.color e hmem).1
      rw [heq, hcap] at hco
      exact Option.noConfusion hco
    simp [makeMove, hp, hcap, h2] at hmk
    subst hmk
    have hpt1 : gridGetL
        (gridSetL (gridSetL b.grid m.fromLoc none) m.toLoc (some p))
        m.toLoc = some p :=
      gridGetL_set_self _ _ _ (by rw [gridSetL_length]; exact hlen) hbt
    have herase1 : eraseAt (l2 ++ [(⟨m.toLoc, p⟩ : PlacedPiece)])
        m.toLoc = some l2 := eraseAt_append_single m.toLoc p l2 hnotto
    simp [undoMove, hpt1, eraseFirstLoc, herase1, hcapn,
      prevPlayer_nextPlayer] at hund
    subst hund
    refine ⟨?_, ?_, ?_, ?_, ?_, ?_, ?_, ?_, ?_⟩
    · -- grid restored
      apply grid_ext_loc _ _ (by simp only [gridSetL_length]; exact hlen)
        hlen
      intro l hin
      by_cases hlf : l = m.fromLoc
      · subst hlf
        rw [gridGetL_set_self _ _ _
          (by simp only [gridSetL_length]; exact hlen) hbf, hp]
      · rw [gridGetL_set_ne _ m.fromLoc l (some p) hbf hlf]
        by_cases hlt : l = m.toLoc
        · subst hlt
          rw [gridGetL_set_self _ _ _
            (by simp only [gridSetL_length]; exact hlen) hbt, hcap]
        · rw [gridGetL_set_ne _ m.toLoc l none hbt hlt,
            gridGetL_set_ne _ m.toLoc l (some p) hbt hlt,
            gridGetL_set_ne _ m.fromLoc l none hbf hlf]
    · -- piece lists restored up to permutation
      intro c
      by_cases hc : c = p.color
      · subst hc
        simp only [PerColor.get_set_eq]
        rw [hsplit, hl2]
        exact (List.perm_append_singleton _ _).trans List.perm_middle.symm
      · rw [PerColor.get_set_ne _ _ _ _ hc, PerColor.get_set_ne _ _ _ _ hc,
          PerColor.get_set_ne _ _ _ _ hc, PerColor.get_set_ne _ _ _ _ hc]
    · -- king locations restored
      by_cases hk : p.type = .king
      · simp only [hk, if_true, PerColor.set_set]
        rw [← hkingP hk, PerColor.set_get_self]
      · simp [hk]
    · -- hash restored
      simp only [updatePieceHash, updateTurnHash, hturn]
      simp [Nat.xor_assoc, Nat.xor_comm, xor_left_comm, Nat.xor_self,
        Nat.xor_zero, Nat.zero_xor, xor_cancel_left]
    · rfl
    · rfl
    · simp [prevPlayer_nextPlayer]
    · rfl
    · -- castling: cleared again on a king move
      by_cases hk : p.type = .king
      · simp only [hk, if_true, PerColor.set_set]
      · simp [hk]
  · -- capture move
    have hcc : cap.color ≠ p.color := capColorOk_spec b m p cap hcap hcapCol
    have hccs : p.color ≠ cap.color := fun h => hcc h.symm
    have hcaps : m.capture = some cap := by rw [hcapEq, hcap]
    rcases h1 : eraseAt (b.pieceList.get cap.color) m.toLoc with _ | lcap
    · simp [makeMove, hp, hcap, h1] at hmk
    rcases h2 : eraseAt ((b.pieceList.set cap.color lcap).get p.color)
        m.fromLoc with _ | l2
    · simp [makeMove, hp, hcap, h1, h2] at hmk
    have h2b : eraseAt (b.pieceList.get p.color) m.fromLoc = some l2 := by
      rw [PerColor.get_set_ne _ _ _ _ hccs] at h2
      exact h2
    obtain ⟨pre, q, post, hsplit, hl2, hprefix⟩ :=
      eraseAt_spec m.fromLoc _ _ h2b
    have hq : q = p := by
      have hmemq : (⟨m.fromLoc, q⟩ : PlacedPiece) ∈
          b.pieceList.get p.color := by
        rw [hsplit]; simp
      have hco := (listsCoherentB_spec b hcoh p.color _ hmemq).1
      rw [show (⟨m.fromLoc, q⟩ : PlacedPiece).loc = m.fromLoc from rfl,
        hp] at hco
      exact (Option.some.inj hco).symm
    rw [hq] at hsplit
    obtain ⟨prec, qc, postc, hsplitc, hlcap, hprefixc⟩ :=
      eraseAt_spec m.toLoc _ _ h1
    have hqc : qc = cap := by
      have hmemq : (⟨m.toLoc, qc⟩ : PlacedPiece) ∈
          b.pieceList.get cap.color := by
        rw [hsplitc]; simp
      have hco := (listsCoherentB_spec b hcoh cap.color _ hmemq).1
      rw [show (⟨m.toLoc, qc⟩ : PlacedPiece).loc = m.toLoc from rfl,
        hcap] at hco
      exact (Option.some.inj hco).symm
    rw [hqc] at hsplitc
    have hnotto : ∀ e ∈ l2, e.loc ≠ m.toLoc := by
      intro e he heq
      have hmem : e ∈ b.pieceList.get p.color := by
        rw [hsplit]
        rw [hl2] at he
        rcases List.mem_append.mp he with h | h
        · exact List.mem_append_left _ h
        · exact List.mem_append_right _ (List.mem_cons_of_mem _ h)
      have hco := listsCoherentB_spec b hcoh p.color e hmem
      rw [heq, hcap] at hco
      exact hcc ((Option.some.inj hco.1) ▸ hco.2)
    simp [makeMove, hp, hcap, h1, h2] at hmk
    subst hmk
    have hpt1 : gridGetL
        (gridSetL (gridSetL (gridSetL b.grid m.toLoc none) m.fromLoc none)
          m.toLoc (some p)) m.toLoc = some p :=
      gridGetL_set_self _ _ _
        (by simp only [gridSetL_length]; exact hlen) hbt
    have herase1 : eraseAt (l2 ++ [(⟨m.toLoc, p⟩ : PlacedPiece)])
        m.toLoc = some l2 := eraseAt_append_single m.toLoc p l2 hnotto
    have hgsn : ∀ (v : PerColor (List PlacedPiece)) x,
        (v.set p.color x).get cap.color = v.get cap.color :=
      fun v x => PerColor.get_set_ne v p.color cap.color x hcc
    simp [undoMove, hpt1, eraseFirstLoc, herase1, hcaps, hgsn,
      prevPlayer_nextPlayer] at hund
    subst hund
    refine ⟨?_, ?_, ?_, ?_, ?_, ?_, ?_, ?_, ?_⟩
    · -- grid restored
      apply grid_ext_loc _ _ (by simp only [gridSetL_length]; exact hlen)
        hlen
      intro l hin
      by_cases hlt : l = m.toLoc
      · subst hlt
        rw [gridGetL_set_self _ _ _
          (by simp only [gridSetL_length]; exact hlen) hbt, hcap]
      · rw [gridGetL_set_ne _ m.toLoc l (some cap) hbt hlt]
        by_cases hlf : l = m.fromLoc
        · subst hlf
          rw [gridGetL_set_self _ _ _
            (by simp only [gridSetL_length]; exact hlen) hbf, hp]
        · rw [gridGetL_set_ne _ m.fromLoc l (some p) hbf hlf,
            gridGetL_set_ne _ m.toLoc l none hbt hlt,
            gridGetL_set_ne _ m.toLoc l (some p) hbt hlt,
            gridGetL_set_ne _ m.fromLoc l none hbf hlf,
            gridGetL_set_ne _ m.toLoc l none hbt hlt]
    · -- piece lists restored up to permutation
      intro c
      by_cases hc : c = cap.color
      · subst hc
        simp only [PerColor.get_set_eq, hgsn]
        rw [hsplitc, hlcap]
        exact (List.perm_append_singleton _ _).trans List.perm_middle.symm
      · rw [PerColor.get_set_ne _ _ _ _ hc]
        by_cases hcp : c = p.color
        · subst hcp
          simp only [PerColor.get_set_eq]
          rw [hsplit, hl2]
          exact (List.perm_append_singleton _ _).trans
            List.perm_middle.symm
        · rw [PerColor.get_set_ne _ _ _ _ hcp,
            PerColor.get_set_ne _ _ _ _ hcp,
            PerColor.get_set_ne _ _ _ _ hcp,
            PerColor.get_set_ne _ _ _ _ hcp,
            PerColor.get_set_ne _ _ _ _ hc]
    · -- king locations restored
      apply PerColor.ext_get
      intro c
      by_cases hk : p.type = .king
      · by_cases hck : cap.type = .king
        · simp only [if_pos hk, if_pos hck]
          by_cases h1c : c = cap.color
          · subst h1c
            rw [PerColor.get_set_eq]
            exact (capKingOk_spec b m cap hcap hck hkingCap).symm
          · rw [PerColor.get_set_ne _ _ _ _ h1c]
            by_cases h2c : c = p.color
            · subst h2c
              rw [PerColor.get_set_eq]
              exact (hkingP hk).symm
            · rw [PerColor.get_set_ne _ _ _ _ h2c,
                PerColor.get_set_ne _ _ _ _ h2c,
                PerColor.get_set_ne _ _ _ _ h2c,
                PerColor.get_set_ne _ _ _ _ h2c,
                PerColor.get_set_ne _ _ _ _ h1c]
        · simp only [if_pos hk, if_neg hck]
          by_cases h2c : c = p.color
          · subst h2c
            rw [PerColor.get_set_eq]
            exact (hkingP hk).symm
          · rw [PerColor.get_set_ne _ _ _ _ h2c,
              PerColor.get_set_ne _ _ _ _ h2c,
              PerColor.get_set_ne _ _ _ _ h2c,
              PerColor.get_set_ne _ _ _ _ h2c]
      · by_cases hck : cap.type = .king
        · simp only [if_neg hk, if_pos hck]
          by_cases h1c : c = cap.color
          · subst h1c
            rw [PerColor.get_set_eq]
            exact (capKingOk_spec b m cap hcap hck hkingCap).symm
          · rw [PerColor.get_set_ne _ _ _ _ h1c,
              PerColor.get_set_ne _ _ _ _ h1c]
        · simp only [if_neg hk, if_neg hck]
    · -- hash restored
      simp only [updatePieceHash, updateTurnHash, hturn]
      simp [Nat.xor_assoc, Nat.xor_comm, xor_left_comm, Nat.xor_self,
        Nat.xor_zero, Nat.zero_xor, xor_cancel_left]
    · -- team material evaluation restored
      by_cases ht : cap.team = .ry <;> simp [ht]
    · -- per-player evaluation restored
      show (b.playerEval.set cap.color
          (b.playerEval.get cap.color - pieceEvalOf cap.type)).set
          cap.color (b.playerEval.get cap.color) = b.playerEval
      rw [PerColor.set_set, PerColor.set_get_self]
    · simp [prevPlayer_nextPlayer]
    · rfl
    · -- castling: cleared again on a king move
      by_cases hk : p.type = .king
      · simp only [hk, if_true, PerColor.set_set]
      · simp [hk]

end FourPC

namespace FourPC

/-- C1 (amended): for a move of the side to move between distinct legal
squares whose capture field matches the board, `MakeMove` followed by
`UndoMove` restores the grid, the piece lists as sets, the king
locations, the incremental hash, the material evaluations, the turn and
the move history — but NOT the castling rights: on a king move the
movers rights end up cleared to (false,false) instead of being
restored, because `UndoMove` re-clears them (board.cc:1713-1716). -/
theorem c1_make_undo_restores_all_but_castling
    (b b' b'' : Board) (m : Move) (p : PieceData)
    (hlen : b.grid.length = 196)
    (hp : gridGetL b.grid m.fromLoc = some p)
    (hturn : p.color = b.turn)
    (hne : m.toLoc ≠ m.fromLoc)
    (hbf : inBoundsRC m.fromLoc.row m.fromLoc.col = true)
    (hbt : inBoundsRC m.toLoc.row m.toLoc.col = true)
    (hcapEq : m.capture = gridGetL b.grid m.toLoc)
    (hcapCol : capColorOk b m p = true)
    (hkingP : p.type = .king → b.kingLoc.get p.color = some m.fromLoc)
    (hkingCap : capKingOk b m = true)
    (hcoh : listsCoherentB b = true)
    (hmk : makeMove b m = some b')
    (hund : undoMove b' = some b'') :
    b''.grid = b.grid ∧
    (∀ c, List.Perm (b''.pieceList.get c) (b.pieceList.get c)) ∧
    b''.kingLoc = b.kingLoc ∧
    b''.hash = b.hash ∧
    b''.pieceEval = b.pieceEval ∧
    b''.playerEval = b.playerEval ∧
    b''.turn = b.turn ∧
    b''.history = b.history ∧
    b''.castling = (if p.type = .king then
        b.castling.set p.color ⟨false, false⟩ else b.castling) :=
  makeUndo_restore b b' b'' m p hlen hp hturn hne hbf hbt hcapEq hcapCol
    hkingP hkingCap hcoh hmk hund

def c1WBoard : Board :=
  mkBoard [(⟨7, 7⟩, ⟨.red, .pawn⟩), (⟨6, 7⟩, ⟨.blue, .rook⟩)] .red noRights

def c1WMove : Move :=
  { fromLoc := ⟨7, 7⟩, toLoc := ⟨6, 7⟩, capture := some ⟨.blue, .rook⟩ }

def c1WB1 : Board := (makeMove c1WBoard c1WMove).getD c1WBoard

def c1WB2 : Board := (undoMove c1WB1).getD c1WBoard

theorem c1_witness :
    makeMove c1WBoard c1WMove = some c1WB1 ∧
    (c1WB2.grid = c1WBoard.grid ∧
      (∀ c, List.Perm (c1WB2.pieceList.get c) (c1WBoard.pieceList.get c)) ∧
      c1WB2.kingLoc = c1WBoard.kingLoc ∧
      c1WB2.hash = c1WBoard.hash ∧
      c1WB2.pieceEval = c1WBoard.pieceEval ∧
      c1WB2.playerEval = c1WBoard.playerEval ∧
      c1WB2.turn = c1WBoard.turn ∧
      c1WB2.history = c1WBoard.history ∧
      c1WB2.castling = (if (⟨PlayerColor.red, PieceType.pawn⟩ :
          PieceData).type = .king then
        c1WBoard.castling.set PlayerColor.red ⟨false, false⟩
        else c1WBoard.castling)) :=
  ⟨by decide,
   c1_make_undo_restores_all_but_castling c1WBoard c1WB1 c1WB2 c1WMove
     ⟨.red, .pawn⟩ (by decide) (by decide) (by decide) (by decide)
     (by decide) (by decide) (by decide) (by decide)
     (fun h => by exact absurd h (by decide)) (by decide) (by decide)
     (by decide) (by decide)⟩

def c1CexBoard : Board :=
  mkBoard [(⟨13, 7⟩, ⟨.red, .king⟩)] .red (PerColor.mkSame ⟨true, true⟩)

def c1CexMove : Move := { fromLoc := ⟨13, 7⟩, toLoc := ⟨12, 7⟩ }

def c1CexAfter : Board :=
  ((makeMove c1CexBoard c1CexMove).bind undoMove).getD c1CexBoard

/-- C1 counterexample: a pseudo-legal king move, made and then undone,
does not restore the board exactly — the grid, hash, turn and history
come back, but the movers castling rights are lost. -/
theorem c1_counterexample :
    c1CexMove ∈
      ((getPseudoLegalMoves2 c1CexBoard 300 none).map
        (fun r => r.moves)).getD [] ∧
    (getPseudoLegalMoves2 c1CexBoard 300 none).isSome = true ∧
    (makeMove c1CexBoard c1CexMove).bind undoMove = some c1CexAfter ∧
    c1CexAfter.grid = c1CexBoard.grid ∧
    c1CexAfter.turn = c1CexBoard.turn ∧
    c1CexAfter.hash = c1CexBoard.hash ∧
    c1CexAfter.history.length = c1CexBoard.history.length ∧
    c1CexAfter.castling ≠ c1CexBoard.castling := by
  refine ⟨by decide, by decide, by decide, by decide, by decide,
    by decide, by decide, by decide⟩

end FourPC

namespace FourPC

/-- Modelled from the spec: `move_buffer_size_` lives in the missing
board.h; the spec says callers size buffers generously, in the hundreds
of slots per ply.  Any bound at least the number of generated moves
behaves identically. -/
def gameResultBufferSize : Nat := 1000

/-- The scan loop of `Board::GetGameResult` (board.cc:1380-1394),
threading the mutated board: each move is made, checked for a king
capture and for leaving the movers king in check, then undone. -/
def grScan (player : PlayerColor) : Board → List Move →
    Option (GameResult × Board)
  | b, [] =>
    if isKingInCheck b player then
      (if player = .red ∨ player = .yellow then some (.winBG, b)
       else some (.winRY, b))
    else some (.stalemate, b)
  | b, mv :: rest =>
    match makeMove b mv with
    | none => none
    | some b1 =>
      let kcr := checkWasLastMoveKingCapture b1
      if kcr ≠ .inProgress then
        match undoMove b1 with
        | none => none
        | some b2 => some (kcr, b2)
      else
        let legal := !(isKingInCheck b1 player)
        match undoMove b1 with
        | none => none
        | some b2 =>
          if legal then some (.inProgress, b2)
          else grScan player b2 rest

/-- `Board::GetGameResult` (board.cc:1372-1404); `none` models the
abort paths inside `MakeMove`/`UndoMove`/generation. -/
def gameResult (b : Board) : Option (GameResult × Board) :=
  match b.kingLoc.get b.turn with
  | none => some ((if b.turn.team = .ry then .winBG else .winRY), b)
  | some _ =>
    match getPseudoLegalMoves2 b gameResultBufferSize none with
    | none => none
    | some r => grScan b.turn b r.moves

theorem makeMove_history (b b' : Board) (m : Move)
    (h : makeMove b m = some b') : b'.history = m :: b.history := by
  unfold makeMove at h
  rcases hg : gridGetL b.grid m.fromLoc with _ | p
  · rw [hg] at h; simp at h
  rw [hg] at h
  rcases hcap : gridGetL b.grid m.toLoc with _ | cap
  · rcases h2 : eraseAt (b.pieceList.get p.color) m.fromLoc with _ | l2
    · simp [hcap, h2] at h
    · simp [hcap, h2] at h
      subst h
      rfl
  · rcases h1 : eraseAt (b.pieceList.get cap.color) m.toLoc with _ | l1
    · simp [hcap, h1] at h
    · rcases h2 : eraseAt ((b.pieceList.set cap.color l1).get p.color)
          m.fromLoc with _ | l2
      · simp [hcap, h1, h2] at h
      · simp [hcap, h1, h2] at h
        subst h
        rfl

end FourPC

namespace FourPC

/-- Adjacent kings, red to move: the first generated move is the red
king capturing the blue king. -/
def c4CexBoard : Board :=
  mkBoard [(⟨7, 7⟩, ⟨.red, .king⟩), (⟨6, 6⟩, ⟨.blue, .king⟩)] .red noRights

def c4CexMove : Move :=
  { fromLoc := ⟨7, 7⟩, toLoc := ⟨6, 6⟩, capture := some ⟨.blue, .king⟩,
    initialRights := some ⟨false, false⟩, newRights := some ⟨false, false⟩ }

/-- C4 counterexample: a pseudo-legal move capturing a king exists, yet
`GetGameResult` returns the capturing team's win, not `IN_PROGRESS` as
the claim states. -/
theorem c4_counterexample :
    (c4CexBoard.kingLoc.get c4CexBoard.turn).isSome = true ∧
    c4CexMove ∈
      ((getPseudoLegalMoves2 c4CexBoard gameResultBufferSize none).map
        (fun r => r.moves)).getD [] ∧
    c4CexMove.capture = some ⟨.blue, .king⟩ ∧
    (gameResult c4CexBoard).map Prod.fst = some GameResult.winRY ∧
    GameResult.winRY ≠ GameResult.inProgress := by
  refine ⟨by decide, by decide, by decide, by decide, by decide⟩

end FourPC

namespace FourPC

/-- The verdict `CheckWasLastMoveKingCapture` reaches right after a move
is made: a pure function of the move's capture field. -/
def kingCaptureVerdict (m : Move) : GameResult :=
  match m.capture with
  | some cap =>
    if cap.type = .king then
      (if cap.team = .ry then .winBG else .winRY)
    else .inProgress
  | none => .inProgress

theorem checkKC_of_make (b b1 : Board) (m : Move)
    (hmk : makeMove b m = some b1) :
    checkWasLastMoveKingCapture b1 = kingCaptureVerdict m := by
  have hh : b1.history = m :: b.history := makeMove_history b b1 m hmk
  unfold checkWasLastMoveKingCapture kingCaptureVerdict
  rw [hh]

theorem any_of_perm (l1 l2 : List PlacedPiece) (f : PlacedPiece → Bool)
    (h : List.Perm l1 l2) (ha : l2.any f = true) : l1.any f = true := by
  rw [List.any_eq_true] at ha ⊢
  obtain ⟨x, hx, hfx⟩ := ha
  exact ⟨x, h.mem_iff.2 hx, hfx⟩

theorem eraseAt_isSome_of_any (loc : Loc) :
    ∀ l : List PlacedPiece,
    l.any (fun e => e.loc == loc) = true → (eraseAt l loc).isSome = true := by
  intro l
  induction l with
  | nil => intro h; simp at h
  | cons pp rest ih =>
    intro h
    simp only [List.any_cons, Bool.or_eq_true, beq_iff_eq] at h
    unfold eraseAt
    by_cases hpp : pp.loc = loc
    · simp [hpp]
    · rcases h with h | h
      · exact absurd h hpp
      · simp only [if_neg hpp]
        rcases hrec : eraseAt rest loc with _ | r
        · have hih := ih h
          rw [hrec] at hih
          exact absurd hih (by simp)
        · simp [hrec]

theorem listsCoherent_transfer (b0 B : Board) (hg : B.grid = b0.grid)
    (hperm : ∀ c, List.Perm (B.pieceList.get c) (b0.pieceList.get c))
    (h : listsCoherentB b0 = true) : listsCoherentB B = true := by
  simp only [listsCoherentB, List.all_eq_true, Bool.and_eq_true,
    beq_iff_eq] at h ⊢
  intro c hc e he
  obtain ⟨h1, h2⟩ := h c hc e ((hperm c).mem_iff.1 he)
  exact ⟨by rw [hg]; exact h1, h2⟩

theorem isKingInCheck_congr (b1 b2 : Board) (pl : PlayerColor)
    (hg : b1.grid = b2.grid) (hk : b1.kingLoc = b2.kingLoc) :
    isKingInCheck b1 pl = isKingInCheck b2 pl := by
  unfold isKingInCheck
  rw [hg, hk]

/-- `MakeMove` cannot abort when the moved piece stands at the source,
both piece-list entries it erases exist, and any captured piece belongs
to another color. -/
theorem makeMove_isSome (b : Board) (m : Move) (p : PieceData)
    (hp : gridGetL b.grid m.fromLoc = some p)
    (hccol : capColorOk b m p = true)
    (hanyF : (b.pieceList.get p.color).any
      (fun e => e.loc == m.fromLoc) = true)
    (hanyT : ∀ cap, gridGetL b.grid m.toLoc = some cap →
      (b.pieceList.get cap.color).any (fun e => e.loc == m.toLoc) = true) :
    (makeMove b m).isSome = true := by
  rcases hcap : gridGetL b.grid m.toLoc with _ | cap
  · rcases h2 : eraseAt (b.pieceList.get p.color) m.fromLoc with _ | l2
    · have := eraseAt_isSome_of_any m.fromLoc _ hanyF
      rw [h2] at this
      exact absurd this (by simp)
    · simp [makeMove, hp, hcap, h2]
  · rcases h1 : eraseAt (b.pieceList.get cap.color) m.toLoc with _ | l1
    · have := eraseAt_isSome_of_any m.toLoc _ (hanyT cap hcap)
      rw [h1] at this
      exact absurd this (by simp)
    · have hcc : cap.color ≠ p.color := capColorOk_spec b m p cap hcap hccol
      rcases h2 : eraseAt ((b.pieceList.set cap.color l1).get p.color)
          m.fromLoc with _ | l2
      · rw [PerColor.get_set_ne _ _ _ _ (fun hh => hcc hh.symm)] at h2
        have := eraseAt_isSome_of_any m.fromLoc _ hanyF
        rw [h2] at this
        exact absurd this (by simp)
      · simp [makeMove, hp, hcap, h1, h2]

theorem makeMove_grid_toLoc (b b1 : Board) (m : Move) (p : PieceData)
    (hp : gridGetL b.grid m.fromLoc = some p)
    (hlen : b.grid.length = 196)
    (hbt : inBoundsRC m.toLoc.row m.toLoc.col = true)
    (hmk : makeMove b m = some b1) :
    gridGetL b1.grid m.toLoc = some p := by
  rcases hcap : gridGetL b.grid m.toLoc with _ | cap
  · rcases h2 : eraseAt (b.pieceList.get p.color) m.fromLoc with _ | l2
    · simp [makeMove, hp, hcap, h2] at hmk
    · simp [makeMove, hp, hcap, h2] at hmk
      subst hmk
      exact gridGetL_set_self _ _ _
        (by simp only [gridSetL_length]; exact hlen) hbt
  · rcases h1 : eraseAt (b.pieceList.get cap.color) m.toLoc with _ | l1
    · simp [makeMove, hp, hcap, h1] at hmk
    · rcases h2 : eraseAt ((b.pieceList.set cap.color l1).get p.color)
          m.fromLoc with _ | l2
      · simp [makeMove, hp, hcap, h1, h2] at hmk
      · simp [makeMove, hp, hcap, h1, h2] at hmk
        subst hmk
        exact gridGetL_set_self _ _ _
          (by simp only [gridSetL_length]; exact hlen) hbt

theorem undoMove_isSome (b1 : Board) (m : Move) (rest : List Move)
    (p : PieceData) (hh : b1.history = m :: rest)
    (hpt : gridGetL b1.grid m.toLoc = some p) :
    (undoMove b1).isSome = true := by
  unfold undoMove
  rw [hh]
  simp [hpt]

/-- The grid and king locations after `MakeMove` depend only on the
pre-move grid, king locations and the move, not on the piece lists or
castling rights. -/
theorem makeMove_grid_kingLoc (b B b1 B1 : Board) (m : Move)
    (hg : B.grid = b.grid) (hk : B.kingLoc = b.kingLoc)
    (hmk : makeMove b m = some b1) (hMK : makeMove B m = some B1) :
    B1.grid = b1.grid ∧ B1.kingLoc = b1.kingLoc := by
  rcases hp : gridGetL b.grid m.fromLoc with _ | p
  · simp [makeMove, hp] at hmk
  have hpB : gridGetL B.grid m.fromLoc = some p := by rw [hg]; exact hp
  rcases hcap : gridGetL b.grid m.toLoc with _ | cap
  · have hcapB : gridGetL B.grid m.toLoc = none := by rw [hg]; exact hcap
    rcases h2 : eraseAt (b.pieceList.get p.color) m.fromLoc with _ | l2
    · simp [makeMove, hp, hcap, h2] at hmk
    rcases h2B : eraseAt (B.pieceList.get p.color) m.fromLoc with _ | l2B
    · simp [makeMove, hpB, hcapB, h2B] at hMK
    simp [makeMove, hp, hcap, h2] at hmk
    simp [makeMove, hpB, hcapB, h2B] at hMK
    subst hmk
    subst hMK
    constructor
    · simp [hg]
    · simp [hk]
  · have hcapB : gridGetL B.grid m.toLoc = some cap := by rw [hg]; exact hcap
    rcases h1 : eraseAt (b.pieceList.get cap.color) m.toLoc with _ | l1
    · simp [makeMove, hp, hcap, h1] at hmk
    rcases h1B : eraseAt (B.pieceList.get cap.color) m.toLoc with _ | l1B
    · simp [makeMove, hpB, hcapB, h1B] at hMK
    rcases h2 : eraseAt ((b.pieceList.set cap.color l1).get p.color)
        m.fromLoc with _ | l2
    · simp [makeMove, hp, hcap, h1, h2] at hmk
    rcases h2B : eraseAt ((B.pieceList.set cap.color l1B).get p.color)
        m.fromLoc with _ | l2B
    · simp [makeMove, hpB, hcapB, h1B, h2B] at hMK
    simp [makeMove, hp, hcap, h1, h2] at hmk
    simp [makeMove, hpB, hcapB, h1B, h2B] at hMK
    subst hmk
    subst hMK
    constructor
    · simp [hg]
    · simp [hk]

end FourPC

namespace FourPC

/-- The per-move side conditions under which one scan iteration of
`GetGameResult` is abort-free: the moved piece belongs to the side to
move and stands at the source, the squares are distinct and on the
board, the capture field matches the board, a captured piece belongs to
another color, king locations agree with moved/captured kings, and the
piece-list entries the iteration erases exist. -/
def moveOkB (b : Board) (m : Move) : Bool :=
  match gridGetL b.grid m.fromLoc with
  | none => false
  | some p =>
    (p.color == b.turn) &&
    (m.toLoc != m.fromLoc) &&
    inBoundsRC m.fromLoc.row m.fromLoc.col &&
    inBoundsRC m.toLoc.row m.toLoc.col &&
    (m.capture == gridGetL b.grid m.toLoc) &&
    capColorOk b m p &&
    capKingOk b m &&
    (p.type != .king || (b.kingLoc.get p.color == some m.fromLoc)) &&
    (b.pieceList.get p.color).any (fun e => e.loc == m.fromLoc) &&
    (match gridGetL b.grid m.toLoc with
     | none => true
     | some cap =>
       (b.pieceList.get cap.color).any (fun e => e.loc == m.toLoc))

theorem moveOkB_spec (b : Board) (m : Move) (p : PieceData)
    (hp : gridGetL b.grid m.fromLoc = some p)
    (h : moveOkB b m = true) :
    p.color = b.turn ∧ m.toLoc ≠ m.fromLoc ∧
    inBoundsRC m.fromLoc.row m.fromLoc.col = true ∧
    inBoundsRC m.toLoc.row m.toLoc.col = true ∧
    m.capture = gridGetL b.grid m.toLoc ∧
    capColorOk b m p = true ∧ capKingOk b m = true ∧
    (p.type = .king → b.kingLoc.get p.color = some m.fromLoc) ∧
    (b.pieceList.get p.color).any (fun e => e.loc == m.fromLoc) = true ∧
    (∀ cap, gridGetL b.grid m.toLoc = some cap →
      (b.pieceList.get cap.color).any (fun e => e.loc == m.toLoc) = true) := by
  unfold moveOkB at h
  rw [hp] at h
  rcases hcap : gridGetL b.grid m.toLoc with _ | cap <;> rw [hcap] at h <;>
    simp only [Bool.and_eq_true, Bool.and_true, bne_iff_ne, beq_iff_eq,
      Bool.or_eq_true, and_assoc] at h
  · obtain ⟨hturn, hne, hbf, hbt, hcapEq, hccol, hcking, hkp, hanyF⟩ := h
    refine ⟨hturn, hne, hbf, hbt, hcapEq, hccol, hcking, ?_, hanyF, ?_⟩
    · intro hk
      rcases hkp with hkp | hkp
      · exact absurd hk hkp
      · exact hkp
    · intro cap hcap2
      exact Option.noConfusion hcap2
  · obtain ⟨hturn, hne, hbf, hbt, hcapEq, hccol, hcking, hkp, hanyF,
      hanyT⟩ := h
    refine ⟨hturn, hne, hbf, hbt, hcapEq, hccol, hcking, ?_, hanyF, ?_⟩
    · intro hk
      rcases hkp with hkp | hkp
      · exact absurd hk hkp
      · exact hkp
    · intro cap2 hcap2
      rw [← Option.some.inj hcap2]
      exact hanyT

/-- The scan-loop restoration relation: `B` agrees with the original
board `b0` on everything except, possibly, the castling rights, with the
piece lists recovered as sets (up to permutation) — exactly "restored up
to the C1 defect". -/
def ScanEquiv (b0 B : Board) : Prop :=
  B.grid = b0.grid ∧
  (∀ c, List.Perm (B.pieceList.get c) (b0.pieceList.get c)) ∧
  B.kingLoc = b0.kingLoc ∧
  B.turn = b0.turn ∧
  B.hash = b0.hash ∧
  B.pieceEval = b0.pieceEval ∧
  B.playerEval = b0.playerEval ∧
  B.history = b0.history

theorem scanEquiv_refl (b : Board) : ScanEquiv b b :=
  ⟨rfl, fun _ => List.Perm.refl _, rfl, rfl, rfl, rfl, rfl, rfl⟩

/-- The pure, claim-side counterpart of the `GetGameResult` scan: every
trial move is applied to the *original* board (no threading), so the
verdict is a function of that board and the generated list alone. -/
def grScanSpec (b0 : Board) (player : PlayerColor) : List Move → GameResult
  | [] =>
    if isKingInCheck b0 player then
      (if player = .red ∨ player = .yellow then GameResult.winBG
       else .winRY)
    else .stalemate
  | mv :: rest =>
    match makeMove b0 mv with
    | none => .inProgress
    | some b1 =>
      if kingCaptureVerdict mv ≠ .inProgress then kingCaptureVerdict mv
      else if isKingInCheck b1 player then grScanSpec b0 player rest
      else .inProgress

end FourPC

namespace FourPC

/-- The threaded scan of `GetGameResult`, run from any board that agrees
with `b0` up to castling rights and piece-list order, terminates without
aborting, returns the verdict of the pure scan `grScanSpec` over `b0`,
and hands back a board still in that relation: the scan as a whole
restores everything but the castling rights. -/
theorem grScan_run (b0 : Board) (player : PlayerColor)
    (hlen : b0.grid.length = 196) (hcoh0 : listsCoherentB b0 = true) :
    ∀ moves : List Move, moves.all (moveOkB b0) = true →
    ∀ B : Board, ScanEquiv b0 B →
    ∃ B2 : Board,
      grScan player B moves = some (grScanSpec b0 player moves, B2) ∧
      ScanEquiv b0 B2 := by
  intro moves
  induction moves with
  | nil =>
    intro _ B hEq
    refine ⟨B, ?_, hEq⟩
    obtain ⟨hg, hperm, hk, ht, hhash, hpe, hpl, hhist⟩ := hEq
    simp only [grScan, grScanSpec]
    rw [isKingInCheck_congr B b0 player hg hk]
    by_cases hic : isKingInCheck b0 player = true
    · simp only [hic, if_true]
      by_cases hcol : player = PlayerColor.red ∨ player = PlayerColor.yellow
      · simp [hcol]
      · simp [hcol]
    · simp [hic]
  | cons mv rest ih =>
    intro hall B hEq
    obtain ⟨hg, hperm, hk, ht, hhash, hpe, hpl, hhist⟩ := hEq
    simp only [List.all_cons, Bool.and_eq_true] at hall
    obtain ⟨hm, hallr⟩ := hall
    rcases hp0 : gridGetL b0.grid mv.fromLoc with _ | p
    · exfalso
      unfold moveOkB at hm
      rw [hp0] at hm
      exact Bool.noConfusion hm
    obtain ⟨hturn0, hne0, hbf0, hbt0, hcapEq0, hccol0, hcking0, hkp0,
      hanyF0, hanyT0⟩ := moveOkB_spec b0 mv p hp0 hm
    have hpB : gridGetL B.grid mv.fromLoc = some p := by
      rw [hg]; exact hp0
    have hccolB : capColorOk B mv p = true := by
      unfold capColorOk at hccol0 ⊢
      rw [hg]
      exact hccol0
    have hckingB : capKingOk B mv = true := by
      unfold capKingOk at hcking0 ⊢
      rw [hg, hk]
      exact hcking0
    have hanyFB : (B.pieceList.get p.color).any
        (fun e => e.loc == mv.fromLoc) = true :=
      any_of_perm _ _ _ (hperm p.color) hanyF0
    have hanyTB : ∀ cap, gridGetL B.grid mv.toLoc = some cap →
        (B.pieceList.get cap.color).any (fun e => e.loc == mv.toLoc)
          = true := by
      intro cap hcap
      rw [hg] at hcap
      exact any_of_perm _ _ _ (hperm cap.color) (hanyT0 cap hcap)
    have hmkB := makeMove_isSome B mv p hpB hccolB hanyFB hanyTB
    rcases hmk : makeMove B mv with _ | b1
    · rw [hmk] at hmkB
      exact absurd hmkB (by simp)
    have hmk0S := makeMove_isSome b0 mv p hp0 hccol0 hanyF0 hanyT0
    rcases hmk0 : makeMove b0 mv with _ | b10
    · rw [hmk0] at hmk0S
      exact absurd hmk0S (by simp)
    obtain ⟨hg1, hk1⟩ := makeMove_grid_kingLoc b0 B b10 b1 mv hg hk
      hmk0 hmk
    have hh1 : b1.history = mv :: B.history := makeMove_history B b1 mv hmk
    have hkc1 : checkWasLastMoveKingCapture b1 = kingCaptureVerdict mv :=
      checkKC_of_make B b1 mv hmk
    have hchk1 : isKingInCheck b1 player = isKingInCheck b10 player :=
      isKingInCheck_congr b1 b10 player hg1 hk1
    have hlenB : B.grid.length = 196 := by rw [hg]; exact hlen
    have hpt1 : gridGetL b1.grid mv.toLoc = some p :=
      makeMove_grid_toLoc B b1 mv p hpB hlenB hbt0 hmk
    have hundS := undoMove_isSome b1 mv B.history p hh1 hpt1
    rcases hund : undoMove b1 with _ | b2
    · rw [hund] at hundS
      exact absurd hundS (by simp)
    have hcohB : listsCoherentB B = true :=
      listsCoherent_transfer b0 B hg hperm hcoh0
    have hcapEqB : mv.capture = gridGetL B.grid mv.toLoc := by
      rw [hg]; exact hcapEq0
    have hkpB : p.type = .king → B.kingLoc.get p.color = some mv.fromLoc :=
      fun hkg => by rw [hk]; exact hkp0 hkg
    have hturnB : p.color = B.turn := by rw [ht]; exact hturn0
    obtain ⟨rg, rperm, rkl, rhash, rpe, rpl, rturn, rhist, _⟩ :=
      makeUndo_restore B b1 b2 mv p hlenB hpB hturnB hne0 hbf0 hbt0
        hcapEqB hccolB hkpB hckingB hcohB hmk hund
    have hEq2 : ScanEquiv b0 b2 :=
      ⟨rg.trans hg, fun c => (rperm c).trans (hperm c), rkl.trans hk,
        rturn.trans ht, rhash.trans hhash, rpe.trans hpe, rpl.trans hpl,
        rhist.trans hhist⟩
    by_cases hkcr : kingCaptureVerdict mv = .inProgress
    · by_cases hchk : isKingInCheck b10 player = true
      · obtain ⟨B2, hrec, hEq3⟩ := ih hallr b2 hEq2
        refine ⟨B2, ?_, hEq3⟩
        simp only [grScan, hmk, hkc1, hkcr, ne_eq, not_true_eq_false,
          if_false, hund]
        rw [hchk1, hchk]
        simp only [Bool.not_true, Bool.false_eq_true, if_false]
        rw [hrec]
        simp only [grScanSpec, hmk0, hkcr, ne_eq, not_true_eq_false,
          if_false, hchk, if_true]
      · refine ⟨b2, ?_, hEq2⟩
        simp only [grScan, hmk, hkc1, hkcr, ne_eq, not_true_eq_false,
          if_false, hund]
        rw [hchk1]
        simp only [Bool.not_eq_true] at hchk
        simp only [hchk, Bool.not_false, if_true]
        simp only [grScanSpec, hmk0, hkcr, ne_eq, not_true_eq_false,
          if_false, hchk, Bool.false_eq_true, if_false]
    · refine ⟨b2, ?_, hEq2⟩
      simp only [grScan, hmk, hkc1, ne_eq, hkcr, not_false_eq_true,
        if_true, hund]
      simp only [grScanSpec, hmk0, ne_eq, hkcr, not_false_eq_true,
        if_true]

end FourPC

namespace FourPC

theorem grScanSpec_all_illegal (b0 : Board) (player : PlayerColor) :
    ∀ moves : List Move,
    (∀ m ∈ moves, kingCaptureVerdict m = .inProgress ∧
      ∃ b1, makeMove b0 m = some b1 ∧ isKingInCheck b1 player = true) →
    grScanSpec b0 player moves =
      (if isKingInCheck b0 player then
        (if player = .red ∨ player = .yellow then GameResult.winBG
         else .winRY)
       else .stalemate) := by
  intro moves
  induction moves with
  | nil => intro _; rfl
  | cons mv rest ih =>
    intro h
    obtain ⟨hkcv, b1, hmk, hchk⟩ := h mv (List.mem_cons_self mv rest)
    simp only [grScanSpec, hmk, hkcv, ne_eq, not_true_eq_false, if_false,
      hchk, if_true]
    exact ih (fun m hm => h m (List.mem_cons_of_mem mv hm))

end FourPC

namespace FourPC

/-- C4 (amended): `GetGameResult` returns the *other* team's win when
the side to move has no king.  Otherwise, when generation succeeds and
every generated move satisfies the scan's abort-freedom conditions, it
returns the verdict of the pure scan `grScanSpec` over the original
board and hands the board back restored up to the C1 castling defect
(`ScanEquiv`: same grid, piece lists as sets, king locations, hash,
evaluations, turn and history).  That pure scan yields the capturing
team's win — NOT `IN_PROGRESS` — as soon as a scanned move captures a
king, `IN_PROGRESS` for the first scanned move leaving the mover's king
out of check, and, when the moves run out with every one failing (in
check afterwards, no king capture), stalemate or the non-moving team's
win according to the current in-check test. -/
theorem c4_gameResult_characterization (b : Board) :
    (b.kingLoc.get b.turn = none →
      gameResult b =
        some ((if b.turn.team = .ry then .winBG else .winRY), b)) ∧
    (∀ kl r, b.grid.length = 196 → listsCoherentB b = true →
      b.kingLoc.get b.turn = some kl →
      getPseudoLegalMoves2 b gameResultBufferSize none = some r →
      r.moves.all (moveOkB b) = true →
      ∃ b2, gameResult b = some (grScanSpec b b.turn r.moves, b2) ∧
        ScanEquiv b b2) ∧
    (∀ moves : List Move,
      (∀ m ∈ moves, kingCaptureVerdict m = .inProgress ∧
        ∃ b1, makeMove b m = some b1 ∧ isKingInCheck b1 b.turn = true) →
      grScanSpec b b.turn moves =
        (if isKingInCheck b b.turn then
          (if b.turn = .red ∨ b.turn = .yellow then GameResult.winBG
           else .winRY)
         else .stalemate)) ∧
    (∀ mv rest b1 cap, makeMove b mv = some b1 →
      mv.capture = some cap → cap.type = .king →
      grScanSpec b b.turn (mv :: rest) =
        (if cap.team = .ry then .winBG else .winRY)) := by
  refine ⟨?_, ?_, ?_, ?_⟩
  · intro h
    simp [gameResult, h]
  · intro kl r hlen hcoh hkl hgen hall
    simp only [gameResult, hkl, hgen]
    exact grScan_run b b.turn hlen hcoh r.moves hall b (scanEquiv_refl b)
  · exact grScanSpec_all_illegal b b.turn
  · intro mv rest b1 cap hmk hcapm hct
    have hkcv : kingCaptureVerdict mv =
        (if cap.team = .ry then .winBG else .winRY) := by
      unfold kingCaptureVerdict
      rw [hcapm]
      simp [hct]
    simp only [grScanSpec, hmk, hkcv]
    cases htm : cap.team <;> simp [htm]

end FourPC

namespace FourPC

def c4WGen : MoveGenResult :=
  (getPseudoLegalMoves2 c4CexBoard gameResultBufferSize none).getD ⟨[], none⟩

theorem c4_witness :
    ∃ b2, gameResult c4CexBoard =
      some (grScanSpec c4CexBoard c4CexBoard.turn c4WGen.moves, b2) ∧
      ScanEquiv c4CexBoard b2 :=
  (c4_gameResult_characterization c4CexBoard).2.1 ⟨7, 7⟩ c4WGen
    (by decide) (by decide) (by decide) (by decide) (by decide)

end FourPC
